import Mathlib

/-!
Verification development for the tsx-to-svg converter.

The program under study is a small two-stage pipeline:
`extractSvgFromTsx` (src/extractor.ts) isolates the first `<svg ...>...</svg>`
fragment from a text blob, and `transformSvg` (src/transformer.ts, extended
variant) rewrites the fragment with a fixed sequence of pattern-based text
substitutions.  Texts are modelled as `List Char`.  Each JavaScript regex used
by the source is deterministic (no essential backtracking), so every rewrite is
embedded as an explicit scanner; global `String.replace` is modelled by a
fuel-indexed scan (`replaceAllF`) that, like the JS engine, resumes scanning
after a replacement without re-examining the replaced text, and
single-replacement `String.replace` by `replaceFirstO`.
-/

/-- Character classes of the JavaScript regex `\s` (whitespace). -/
def isWsChar (c : Char) : Bool :=
  c.toNat = 0x09 || c.toNat = 0x0a || c.toNat = 0x0b || c.toNat = 0x0c ||
  c.toNat = 0x0d || c.toNat = 0x20 || c.toNat = 0xa0 || c.toNat = 0x1680 ||
  (0x2000 ≤ c.toNat && c.toNat ≤ 0x200a) || c.toNat = 0x2028 || c.toNat = 0x2029 ||
  c.toNat = 0x202f || c.toNat = 0x205f || c.toNat = 0x3000 || c.toNat = 0xfeff

/-- ASCII decimal digit, the regex class `\d`. -/
def isDigitCh (c : Char) : Bool := '0' ≤ c && c ≤ '9'

/-- ASCII lowercase letter, the regex class `[a-z]`. -/
def isLowerCh (c : Char) : Bool := 'a' ≤ c && c ≤ 'z'

/-- ASCII uppercase letter, the regex class `[A-Z]`. -/
def isUpperCh (c : Char) : Bool := 'A' ≤ c && c ≤ 'Z'

/-- ASCII letter, the regex class `[a-zA-Z]`. -/
def isAlphaCh (c : Char) : Bool := isLowerCh c || isUpperCh c

/-- The single-quote (apostrophe) character, U+0027. -/
def sqCh : Char := Char.ofNat 39

/-- A single or double quote, the regex class of the viewBox pattern. -/
def isQuoteCh (c : Char) : Bool := c = '"' || c = sqCh

/-- The head of `s` exists and satisfies `p`. -/
def headSat (p : Char → Bool) : List Char → Bool
  | [] => false
  | c :: _ => p c

/-- The head of `s` is exactly `c`. -/
def hasHead (c : Char) (s : List Char) : Bool := headSat (fun d => d = c) s

/-- ASCII lowercasing, used both for `/i`-insensitive matching of the ASCII
patterns in the source and for `toLowerCase` on the ASCII attribute names. -/
def lowerChar (c : Char) : Char :=
  if 'A' ≤ c && c ≤ 'Z' then Char.ofNat (c.toNat + 32) else c

/-- Case-insensitive character comparison (ASCII folding). -/
def ciEq (a b : Char) : Bool := lowerChar a = lowerChar b

/-- `pat` matches the first `pat.length` characters of `s`, case-insensitively. -/
def ciPref : List Char → List Char → Bool
  | [], _ => true
  | _ :: _, [] => false
  | p :: ps, c :: cs => ciEq p c && ciPref ps cs

/-- `pat` matches the first `pat.length` characters of `s` literally. -/
def litPref : List Char → List Char → Bool
  | [], _ => true
  | _ :: _, [] => false
  | p :: ps, c :: cs => (p = c) && litPref ps cs

/-- `hasSub pat s` is JavaScript `s.includes(pat)`: some position of `s`
starts with the literal `pat`. -/
def hasSub (pat : List Char) : List Char → Bool
  | [] => litPref pat []
  | c :: rest => litPref pat (c :: rest) || hasSub pat rest

/-- Fueled engine for global regex replacement (`String.replace(/…/g, …)`).
`try?` reports, at the current position, the replacement text and the rest of
the input after the matched span; on failure the scan advances one character.
Matched spans are nonempty for every matcher in this development, so fuel
`s.length` always suffices (`replaceAll`). -/
def replaceAllF (try? : List Char → Option (List Char × List Char)) :
    Nat → List Char → List Char
  | 0, s => s
  | fuel + 1, s =>
    match try? s with
    | some (rep, rest) => rep ++ replaceAllF try? fuel rest
    | none =>
      match s with
      | [] => []
      | c :: rest => c :: replaceAllF try? fuel rest

/-- Global regex replacement over a whole text. -/
def replaceAll (try? : List Char → Option (List Char × List Char))
    (s : List Char) : List Char :=
  replaceAllF try? s.length s

/-- First-occurrence regex replacement (`String.replace(/…/, …)` without the
`g` flag); `none` when the pattern never matches, in which case JavaScript
returns the string unchanged (`.getD s` at call sites). -/
def replaceFirstO (try? : List Char → Option (List Char × List Char)) :
    List Char → Option (List Char)
  | [] =>
    match try? [] with
    | some (rep, rest) => some (rep ++ rest)
    | none => none
  | c :: rest =>
    match try? (c :: rest) with
    | some (rep, rest2) => some (rep ++ rest2)
    | none => (replaceFirstO try? rest).map (fun t => c :: t)

/-- The spread-props placeholder pattern `/\{\s*\.\.\.\s*props\s*\}/`:
`{`, optional whitespace, `...`, optional whitespace, `props`, optional
whitespace, `}`.  The whitespace runs are maximal (greedy `\s*` never needs to
give characters back because no literal of the pattern is whitespace). -/
def matchProps : List Char → Option (List Char × List Char)
  | [] => none
  | c :: rest =>
    if c = '{' then
      let r1 := rest.dropWhile isWsChar
      if litPref "...".toList r1 then
        let r3 := (r1.drop 3).dropWhile isWsChar
        if litPref "props".toList r3 then
          let r5 := (r3.drop 5).dropWhile isWsChar
          if hasHead '}' r5 then some ([], r5.tail) else none
        else none
      else none
    else none

/-- The token replaced by the dynamic-color substitution. -/
def ccTok : List Char := ['c', 'u', 'r', 'r', 'e', 'n', 't', 'C', 'o', 'l', 'o', 'r']

/-- The pattern `/currentColor/gi`: a case-insensitive occurrence of the
token, replaced by the resolved color. -/
def matchCC (color : List Char) (s : List Char) : Option (List Char × List Char) :=
  if ciPref ccTok s then some (color, s.drop 12) else none

/-- The numeric JSX-expression pattern `/=\{\s*(\d+(?:\.\d+)?)\s*\}/`;
the replacement is `="N"` with `N` the captured numeric literal. -/
def matchNum (s : List Char) : Option (List Char × List Char) :=
  if litPref ['=', '{'] s then
    let r1 := (s.drop 2).dropWhile isWsChar
    let ds := r1.takeWhile isDigitCh
    if ds.isEmpty then none
    else
      let r2 := r1.drop ds.length
      let fs := if hasHead '.' r2 then r2.tail.takeWhile isDigitCh else []
      let frac : List Char := if fs.isEmpty then [] else '.' :: fs
      let r3 := if fs.isEmpty then r2 else r2.tail.drop fs.length
      let r4 := r3.dropWhile isWsChar
      if hasHead '}' r4 then some ('=' :: '"' :: (ds ++ frac) ++ ['"'], r4.tail)
      else none
  else none

/-- The literal `viewBox=` head of the viewBox pattern. -/
def vbLit : List Char := ['v', 'i', 'e', 'w', 'B', 'o', 'x', '=']

/-- One attempt of `/viewBox=["']([^"']+)["']/i` at the current position:
`viewBox=` (case-insensitive), a quote, one or more non-quote characters
(greedy, deterministic), a quote.  Returns the captured value. -/
def matchVB (s : List Char) : Option (List Char) :=
  if ciPref vbLit s && headSat isQuoteCh (s.drop 8) then
    let v := (s.drop 9).takeWhile (fun c => !isQuoteCh c)
    if v.isEmpty then none
    else if headSat isQuoteCh ((s.drop 9).drop v.length) then some v
    else none
  else none

/-- First match of the viewBox pattern in the text (`String.match`). -/
def searchVB : List Char → Option (List Char)
  | [] => none
  | c :: rest =>
    match matchVB (c :: rest) with
    | some v => some v
    | none => searchVB rest

/-- Fueled `String.split(/\s+/)`: segments of non-whitespace characters
between maximal whitespace runs.  As in JavaScript, a leading run contributes
an initial empty segment and a trailing run a final empty segment. -/
def splitWsF : Nat → List Char → List (List Char)
  | 0, s => [s]
  | fuel + 1, s =>
    let seg := s.takeWhile (fun c => !isWsChar c)
    let r := s.drop seg.length
    if r.isEmpty then [seg]
    else seg :: splitWsF fuel (r.dropWhile isWsChar)

/-- `String.split(/\s+/)`. -/
def splitWs (s : List Char) : List (List Char) := splitWsF s.length s

/-- Result of `extractViewBoxDimensions`: the source returns an object with
optional `width`/`height` string fields. -/
structure VBDims where
  width : Option (List Char) := none
  height : Option (List Char) := none
deriving DecidableEq, Repr

/-- `extractViewBoxDimensions` (transformer.ts, lines 50-65): find the first
`viewBox` attribute, split its value on whitespace runs, and when at least
four fields result take the 3rd and 4th as width and height. -/
def extractViewBoxDimensions (svgContent : List Char) : VBDims :=
  match searchVB svgContent with
  | none => {}
  | some v =>
    let values := splitWs v
    if values.length ≥ 4 then { width := values.get? 2, height := values.get? 3 }
    else {}

/-- JavaScript string truthiness of an optional string: present and
nonempty. -/
def truthy : Option (List Char) → Bool
  | some s => !s.isEmpty
  | none => false

/-- The literal `width="` head of the width-attribute pattern. -/
def widthQ : List Char := ['w', 'i', 'd', 't', 'h', '=', '"']

/-- The literal `height="` head of the height-attribute pattern. -/
def heightQ : List Char := ['h', 'e', 'i', 'g', 'h', 't', '=', '"']

/-- The case-sensitive pattern `/width="[^"]*"/`, replaced (when used for
injection) by `width="w"`. -/
def matchWidthAttr (w : List Char) (s : List Char) : Option (List Char × List Char) :=
  if litPref widthQ s then
    let v := (s.drop 7).takeWhile (fun c => c ≠ '"')
    if hasHead '"' ((s.drop 7).drop v.length) then
      some (widthQ ++ w ++ ['"'], ((s.drop 7).drop v.length).tail)
    else none
  else none

/-- The case-sensitive pattern `/height="[^"]*"/`, replaced by `height="h"`. -/
def matchHeightAttr (h : List Char) (s : List Char) : Option (List Char × List Char) :=
  if litPref heightQ s then
    let v := (s.drop 8).takeWhile (fun c => c ≠ '"')
    if hasHead '"' ((s.drop 8).drop v.length) then
      some (heightQ ++ h ++ ['"'], ((s.drop 8).drop v.length).tail)
    else none
  else none

/-- The literal opening `<svg`. -/
def ltSvg : List Char := ['<', 's', 'v', 'g']

/-- The case-sensitive pattern `/<svg/` with an arbitrary replacement `ins`
(used to insert attributes after the tag name). -/
def matchLtSvgIns (ins : List Char) (s : List Char) : Option (List Char × List Char) :=
  if litPref ltSvg s then some (ins, s.drop 4) else none

/-- Width handling inside the opening-tag callback (transformer.ts lines
110-116): replace the first `width="…"` in place when the tag has one,
otherwise insert `width="w"` right after the (case-sensitive) `<svg`. -/
def injectWidth (w : List Char) (tag : List Char) : List Char :=
  match replaceFirstO (matchWidthAttr w) tag with
  | some t => t
  | none =>
    (replaceFirstO (matchLtSvgIns (ltSvg ++ ' ' :: widthQ ++ w ++ ['"'])) tag).getD tag

/-- Height handling inside the opening-tag callback (transformer.ts lines
117-123). -/
def injectHeight (h : List Char) (tag : List Char) : List Char :=
  match replaceFirstO (matchHeightAttr h) tag with
  | some t => t
  | none =>
    (replaceFirstO (matchLtSvgIns (ltSvg ++ ' ' :: heightQ ++ h ++ ['"'])) tag).getD tag

/-- The opening-tag callback of the dimension step: apply the width rewrite,
then the height rewrite to the modified tag, each only when its target is a
truthy (nonempty) string. -/
def injectDims (tw th : Option (List Char)) (tag : List Char) : List Char :=
  let t1 :=
    match tw with
    | some w => if w.isEmpty then tag else injectWidth w tag
    | none => tag
  match th with
  | some h => if h.isEmpty then t1 else injectHeight h t1
  | none => t1

/-- The pattern `/(<svg[^>]*?>)/i`: a case-insensitive `<svg`, then lazily any
non-`>` characters up to the first `>`.  Returns the matched opening tag (with
its original casing) and the rest of the text. -/
def matchSvgOpenTag (s : List Char) : Option (List Char × List Char) :=
  if ciPref ltSvg s then
    let body := (s.drop 4).takeWhile (fun c => c ≠ '>')
    if hasHead '>' ((s.drop 4).drop body.length) then
      some (s.take 4 ++ body ++ ['>'], ((s.drop 4).drop body.length).tail)
    else none
  else none

/-- The dimension step's single replacement: the first opening `<svg…>` tag,
rewritten by `injectDims`. -/
def svgTagTry (tw th : Option (List Char)) (s : List Char) :
    Option (List Char × List Char) :=
  (matchSvgOpenTag s).map (fun p => (injectDims tw th p.1, p.2))

/-- The literal `xmlns=` tested by `transformed.includes('xmlns=')`. -/
def xmlnsEq : List Char := ['x', 'm', 'l', 'n', 's', '=']

/-- The namespace attribute inserted after `<svg` when no `xmlns=` occurs. -/
def xmlnsIns : List Char := "<svg xmlns=\"http://www.w3.org/2000/svg\"".toList

/-- The pattern `/<svg/i` with the namespace insertion as replacement. -/
def matchLtSvgCIIns (s : List Char) : Option (List Char × List Char) :=
  if ciPref ltSvg s then some (xmlnsIns, s.drop 4) else none

/-- `camelToKebab`'s hyphen insertion, the global replacement
`/([a-z0-9])([A-Z])/g → $1-$2`: a hyphen between every lowercase-or-digit
character and the uppercase character right after it, the scan resuming after
each matched pair. -/
def insertHyphens : List Char → List Char
  | a :: b :: rest =>
    if (isLowerCh a || isDigitCh a) && isUpperCh b then
      a :: '-' :: b :: insertHyphens rest
    else a :: insertHyphens (b :: rest)
  | s => s

/-- `camelToKebab` (transformer.ts lines 20-22): hyphenate then lowercase. -/
def camelToKebab (str : List Char) : List Char := (insertHyphens str).map lowerChar

/-- `SVG_CAMEL_CASE_ATTRS` (transformer.ts lines 28-44): attribute names kept
verbatim by the casing normalization. -/
def SVG_CAMEL_CASE_ATTRS : List (List Char) :=
  ["viewBox".toList, "preserveAspectRatio".toList, "gradientUnits".toList,
   "gradientTransform".toList, "clipPathUnits".toList, "baseFrequency".toList,
   "calcMode".toList, "tableValues".toList, "targetX".toList, "targetY".toList,
   "patternUnits".toList, "patternContentUnits".toList, "patternTransform".toList,
   "maskUnits".toList, "maskContentUnits".toList]

/-- The pattern `/\s([a-z][a-zA-Z]*[A-Z][a-zA-Z]*)=/g` with its callback:
a whitespace character, then a maximal letter run starting with a lowercase
letter and containing an uppercase letter, immediately followed by `=`.
Allow-listed names are kept as matched; other names are kebab-cased, with the
leading whitespace character normalized to a single space by the replacement
template. -/
def matchCamelAttr : List Char → Option (List Char × List Char)
  | [] => none
  | c :: rest =>
    if isWsChar c && headSat isLowerCh rest then
      let name := rest.takeWhile isAlphaCh
      if name.any isUpperCh && hasHead '=' (rest.drop name.length) then
        let r3 := (rest.drop name.length).tail
        if SVG_CAMEL_CASE_ATTRS.contains name then some (c :: name ++ ['='], r3)
        else some (' ' :: camelToKebab name ++ ['='], r3)
      else none
    else none

/-- The pattern `/\s+/g` with replacement a single space: a maximal
whitespace run. -/
def matchWsRun : List Char → Option (List Char × List Char)
  | [] => none
  | c :: rest =>
    if isWsChar c then some ([' '], rest.dropWhile isWsChar) else none

/-- The pattern `/\s+>/g` with replacement `>`: a maximal whitespace run
immediately followed by `>` (shorter runs cannot match, since the character
after them is again whitespace). -/
def matchWsGt : List Char → Option (List Char × List Char)
  | [] => none
  | c :: rest =>
    if isWsChar c && hasHead '>' (rest.dropWhile isWsChar) then
      some (['>'], (rest.dropWhile isWsChar).tail)
    else none

/-- `TransformOptions` (transformer.ts lines 10-14). -/
structure TransformOptions where
  width : Option (List Char) := none
  height : Option (List Char) := none
  color : Option (List Char) := none
deriving DecidableEq, Repr

/-- The `Result<T>` union of extractor.ts: success with data, or failure.  The
`failure` payload stands for the `TransformationError` message. -/
inductive Result (α : Type) where
  | success (data : α)
  | failure (msg : List Char)
deriving DecidableEq, Repr

/-- The color used when `options.color` is absent or empty. -/
def defaultColor : List Char := ['#', '0', '0', '0', '0', '0', '0']

/-- `options?.color || '#000000'` (transformer.ts line 79): the replacement
color is the supplied one when it is a truthy (nonempty) string, else the
default. -/
def resolveColor (options : TransformOptions) : List Char :=
  match options.color with
  | some c => if c.isEmpty then defaultColor else c
  | none => defaultColor

/-- Target-dimension resolution (transformer.ts lines 92-104): start from the
options; when either is untruthy, consult `extractViewBoxDimensions` on the
current text and fill each untruthy target from a truthy viewBox field. -/
def resolveTargets (options : TransformOptions) (t3 : List Char) :
    Option (List Char) × Option (List Char) :=
  if !truthy options.width || !truthy options.height then
    let vbd := extractViewBoxDimensions t3
    ((if !truthy options.width && truthy vbd.width then vbd.width
      else options.width),
     (if !truthy options.height && truthy vbd.height then vbd.height
      else options.height))
  else (options.width, options.height)

/-- `transformSvg` (transformer.ts lines 76-164, extended variant), the exact
sequence of rewrites of the source:
1. remove every `{…props}` placeholder;
2. replace every case-insensitive `currentColor` with `options.color` when
   that is a nonempty string (`options?.color || '#000000'`), else `#000000`;
3. coerce `={N}` numeric JSX expressions to `="N"`;
4. resolve target width/height (explicit truthy options first, else truthy
   viewBox-derived fields) and rewrite the first opening `<svg…>` tag;
5. insert `xmlns` after `<svg` when `xmlns=` occurs nowhere;
6. kebab-case camelCase attribute-name tokens outside the allow-list;
7. collapse whitespace runs to single spaces;
8. drop whitespace before `>`.
The surrounding `try/catch` can only produce the failure branch through an
engine exception, which the embedded total rewrites cannot raise, so the
result is always `success`. -/
def transformSvg (svgContent : List Char) (options : TransformOptions) :
    Result (List Char) :=
  let t1 := replaceAll matchProps svgContent
  let t2 := replaceAll (matchCC (resolveColor options)) t1
  let t3 := replaceAll matchNum t2
  let targets := resolveTargets options t3
  let t4 :=
    if truthy targets.1 || truthy targets.2 then
      (replaceFirstO (svgTagTry targets.1 targets.2) t3).getD t3
    else t3
  let t5 :=
    if hasSub xmlnsEq t4 then t4
    else (replaceFirstO matchLtSvgCIIns t4).getD t4
  let t6 := replaceAll matchCamelAttr t5
  let t7 := replaceAll matchWsRun t6
  let t8 := replaceAll matchWsGt t7
  Result.success t8

/-- The literal closing tag `</svg>`. -/
def closeSvg : List Char := ['<', '/', 's', 'v', 'g', '>']

/-- Split at the first case-insensitive occurrence of `pat`: the characters
before the occurrence, and the suffix starting at it. -/
def splitAtCI (pat : List Char) : List Char → Option (List Char × List Char)
  | [] => if ciPref pat [] then some ([], []) else none
  | c :: rest =>
    if ciPref pat (c :: rest) then some ([], c :: rest)
    else (splitAtCI pat rest).map (fun p => (c :: p.1, p.2))

/-- One attempt of `/<svg[\s>][^]*?<\/svg>/i` at the current position: `<svg`
(case-insensitive), one whitespace-or-`>` character (so a type name such as
`SVGProps<SVGSVGElement>` never matches), then lazily anything up to the
nearest `</svg>`.  Returns the whole matched span. -/
def matchSvgFrag (s : List Char) : Option (List Char) :=
  if ciPref ltSvg s && headSat (fun c => isWsChar c || c = '>') (s.drop 4) then
    match splitAtCI closeSvg (s.drop 5) with
    | some (mid, fromClose) => some (s.take 5 ++ mid ++ fromClose.take 6)
    | none => none
  else none

/-- First match of the fragment pattern in the file content. -/
def searchSvgFrag : List Char → Option (List Char)
  | [] => none
  | c :: rest =>
    match matchSvgFrag (c :: rest) with
    | some sp => some sp
    | none => searchSvgFrag rest

/-- One attempt of the second-pass pattern `/<svg[\s>]/i`: the matched
five-character string, with its original casing. -/
def matchOpen5 (s : List Char) : Option (List Char) :=
  if ciPref ltSvg s && headSat (fun c => isWsChar c || c = '>') (s.drop 4) then
    some (s.take 5)
  else none

/-- First match of the second-pass pattern in the extracted span. -/
def searchOpen5 : List Char → Option (List Char)
  | [] => none
  | c :: rest =>
    match matchOpen5 (c :: rest) with
    | some m => some m
    | none => searchOpen5 rest

/-- `String.indexOf` of a literal pattern (`-1` becomes `none`). -/
def idxOfLit (pat : List Char) : List Char → Option Nat
  | [] => if litPref pat [] then some 0 else none
  | c :: rest =>
    if litPref pat (c :: rest) then some 0
    else (idxOfLit pat rest).map (· + 1)

/-- Outcome of `extractSvgFromTsx`: success, the `No SVG tag found` extraction
error naming the file, or the read-failure extraction error naming the file
and wrapping the underlying cause. -/
inductive ExtractResult where
  | success (data : List Char)
  | notFound (filePath : List Char)
  | ioFailure (filePath : List Char) (cause : List Char)
deriving DecidableEq, Repr

/-- `extractSvgFromTsx` (extractor.ts lines 17-55).  The file read is
modelled by `readResult`: `.error` when `readFile` rejects (missing file,
permission), `.ok content` otherwise.  Every branch of the source returns a
value — nothing escapes the `try/catch` — which the embedding reflects by
totality. -/
def extractSvgFromTsx (filePath : List Char)
    (readResult : Except (List Char) (List Char)) : ExtractResult :=
  match readResult with
  | .error e => .ioFailure filePath e
  | .ok content =>
    match searchSvgFrag content with
    | none => .notFound filePath
    | some span =>
      let svgContent :=
        match searchOpen5 span with
        | some m =>
          match idxOfLit m span with
          | some i => span.drop i
          | none => span
        | none => span
      .success svgContent

/-- The spread-props placeholder written out as characters. -/
def propsLit : List Char := '{' :: "...props".toList ++ ['}']

/-- A text that splices into a new placeholder when its inner placeholder is
deleted: the outer braces and dots survive the single left-to-right pass. -/
def spliceLit : List Char := '{' :: "...pro".toList ++ propsLit ++ ("ps".toList ++ ['}'])

/-- The spec's end-to-end example input fragment. -/
def c1In : List Char :=
  "<svg width=\"24\" height=\"24\" viewBox=\"0 0 24 24\" fill=\"currentColor\" ".toList
    ++ propsLit ++ "><path d=\"M1 1\" /></svg>".toList

/-- What `transformSvg` actually produces on the example: the space before
`/>` survives, because the cleanup pattern only deletes whitespace directly
before `>`. -/
def c1Out : List Char :=
  ("<svg xmlns=\"http://www.w3.org/2000/svg\" width=\"24\" height=\"24\" "
    ++ "viewBox=\"0 0 24 24\" fill=\"#000000\"><path d=\"M1 1\" /></svg>").toList

/-- The output text the spec's example claims, with `\"/>` unspaced. -/
def c1OutClaimed : List Char :=
  ("<svg xmlns=\"http://www.w3.org/2000/svg\" width=\"24\" height=\"24\" "
    ++ "viewBox=\"0 0 24 24\" fill=\"#000000\"><path d=\"M1 1\"/></svg>").toList

/-- A fragment whose `viewBox` value has five whitespace-separated fields. -/
def c2In : List Char := "<svg width=\"1\" viewBox=\"0 0 7 8 9\"/>".toList

/-- `transformSvg`'s output on `c2In`: width/height are derived from the 3rd
and 4th of the five fields. -/
def c2Out : List Char :=
  "<svg xmlns=\"http://www.w3.org/2000/svg\" height=\"8\" width=\"7\" viewBox=\"0 0 7 8 9\"/>".toList

/-- A fragment containing the splicing placeholder text. -/
def c3In : List Char := spliceLit ++ "<svg xmlns=\"a\"/>".toList

/-- First `transformSvg` pass on `c3In`: the splice has produced a fresh
placeholder. -/
def c3Mid : List Char := propsLit ++ "<svg xmlns=\"a\"/>".toList

/-- Second `transformSvg` pass removes the fresh placeholder. -/
def c3Out : List Char := "<svg xmlns=\"a\"/>".toList

/-- A fragment with the splicing placeholder and two nested `xmlns`
declarations. -/
def c4In : List Char :=
  spliceLit ++ "<svg xmlns=\"a\"><g xmlns=\"b\"/></svg>".toList

/-- Options carrying a `width` whose text is itself a numeric JSX
expression. -/
def c4Opts : TransformOptions := { width := some ['=', '{', '1', '}'] }

/-- `transformSvg`'s output on `c4In` with `c4Opts`. -/
def c4Out : List Char :=
  propsLit ++ "<svg width=\"".toList ++ ['=', '{', '1', '}']
    ++ "\" xmlns=\"a\"><g xmlns=\"b\"/></svg>".toList

/-- A fragment on which replacing `currentColor` by the valid hex color
`#00000c` splices a new `currentColor` occurrence. -/
def c7In : List Char := "<svg fill=\"currentColorurrentColor\"></svg>".toList

/-- `transformSvg`'s output on `c7In` with color `#00000c`. -/
def c7Out : List Char :=
  "<svg xmlns=\"http://www.w3.org/2000/svg\" fill=\"#00000currentColor\"></svg>".toList

/-- A fragment whose attribute value contains a camelCase `name=` shape. -/
def c8In : List Char := "<svg xmlns=\"a\" d=\"m fooBar=2\"/>".toList

/-- `transformSvg`'s output on `c8In`: the token inside the quoted value was
kebab-cased. -/
def c8Out : List Char := "<svg xmlns=\"a\" d=\"m foo-bar=2\"/>".toList

/-- A fragment whose root tag is written `<SVG`. -/
def c9In : List Char := "<SVG viewBox=\"0 0 6 6\"></svg>".toList

/-- `transformSvg`'s output on `c9In`: no width/height attribute was inserted
(the insertion replaces a case-sensitive `<svg`), and the namespace insertion
lowercased the tag. -/
def c9Out : List Char :=
  "<svg xmlns=\"http://www.w3.org/2000/svg\" viewBox=\"0 0 6 6\"></svg>".toList

/-- A fragment whose root tag carries a single-quoted width attribute. -/
def c10In : List Char :=
  "<svg width=".toList ++ sqCh :: '2' :: '4' :: sqCh ::
    " viewBox=\"0 0 6 6\"></svg>".toList

/-- `transformSvg`'s output on `c10In`: both the inserted double-quoted and
the original single-quoted width attribute are present. -/
def c10Out : List Char :=
  "<svg xmlns=\"http://www.w3.org/2000/svg\" height=\"6\" width=\"6\" width=".toList
    ++ sqCh :: '2' :: '4' :: sqCh :: " viewBox=\"0 0 6 6\"></svg>".toList

/-- Some position of `s` matches `try?`. -/
def anyMatch (try? : List Char → Option (List Char × List Char))
    (s : List Char) : Bool :=
  (List.range (s.length + 1)).any (fun n => (try? (s.drop n)).isSome)

/-- Some position of `s` starts with a case-insensitive occurrence of `pat`. -/
def anyCI (pat : List Char) (s : List Char) : Bool :=
  (List.range (s.length + 1)).any (fun n => ciPref pat (s.drop n))

/-- Number of positions of `s` where the literal `pat` occurs. -/
def countSub (pat : List Char) : List Char → Nat
  | [] => if litPref pat [] then 1 else 0
  | c :: rest => (if litPref pat (c :: rest) then 1 else 0) + countSub pat rest

/-- No position of `s` carries a case-insensitive `currentColor` occurrence
(positions beyond `s.length` are the empty suffix, which cannot match the
nonempty token). -/
def CCFree (s : List Char) : Prop :=
  ∀ n, n ≤ s.length → ciPref ccTok (s.drop n) = false

instance (s : List Char) : Decidable (CCFree s) := by
  unfold CCFree
  infer_instance

/-- The `currentColor` token lowercased: the character alphabet relevant to
case-insensitive occurrences. -/
def ccLow : List Char := ['c', 'u', 'r', 'r', 'e', 'n', 't', 'c', 'o', 'l', 'o', 'r']

/-- `c` is (up to case) one of the characters of the `currentColor` token. -/
def inTokCC (c : Char) : Bool := ccLow.contains (lowerChar c)

/-- Every whitespace character of `s` is a plain space. -/
def allWsSpace (s : List Char) : Bool := s.all (fun c => !isWsChar c || c = ' ')

/-- No two adjacent whitespace characters in `s`. -/
def noAdjWs : List Char → Bool
  | a :: b :: r => !(isWsChar a && isWsChar b) && noAdjWs (b :: r)
  | _ => true

/-- No whitespace character of `s` directly precedes a `>`. -/
def noWsGt : List Char → Bool
  | a :: b :: r => !(isWsChar a && b = '>') && noWsGt (b :: r)
  | _ => true

/-- The extraction pattern can match at the current position: `<svg`
(case-insensitively), then a whitespace-or-`>` character, then a closing
`</svg>` somewhere after. -/
def HeadPair (s : List Char) : Prop :=
  ciPref ltSvg s = true ∧
  headSat (fun c => isWsChar c || c = '>') (s.drop 4) = true ∧
  ∃ m, ciPref closeSvg ((s.drop 5).drop m) = true

/-- Some position of `txt` opens a `<svg` tag of the expected shape (tag name
followed by whitespace or `>`) with a `</svg>` closing tag somewhere after
it: exactly the texts on which the extraction pattern can match. -/
def SvgPairAt (txt : List Char) : Prop :=
  ∃ n, ciPref ltSvg (txt.drop n) = true ∧
    headSat (fun c => isWsChar c || c = '>') ((txt.drop n).drop 4) = true ∧
    ∃ m, ciPref closeSvg (((txt.drop n).drop 5).drop m) = true

/-- Decidable check that one attempted match would replace the matched span by
itself (or does not match). -/
def optSelfB : Option (List Char × List Char) → List Char → Bool
  | none, _ => true
  | some (rep, rest), x => rep ++ rest == x

/-- `try?` matches nothing in `s` except spans it replaces by themselves: the
normalized-form condition under which a replacement pass leaves `s`
unchanged. -/
def SelfB (try? : List Char → Option (List Char × List Char)) (s : List Char) : Prop :=
  ∀ n, n ≤ s.length → optSelfB (try? (s.drop n)) (s.drop n) = true

instance (try? : List Char → Option (List Char × List Char)) (s : List Char) :
    Decidable (SelfB try? s) := by
  unfold SelfB
  infer_instance

/-- Every successful attempt of `try?` leaves a proper suffix of its input as
the rest: the well-formedness property of all matchers in this file (matched
spans are nonempty spans of the input). -/
def ProperTail (try? : List Char → Option (List Char × List Char)) : Prop :=
  ∀ s rep rest, try? s = some (rep, rest) → rest.length < s.length ∧ rest <:+ s

/-- A source text whose only case-insensitive `<svg` occurrence is inside the
type reference `SVGProps<SVGSVGElement>` — the tag name is followed by a
letter there, never by whitespace or `>`. -/
def c6In : List Char :=
  "const Icon = (props: SVGProps<SVGSVGElement>) => null;".toList

/-- A file path used when exercising the extractor on concrete texts. -/
def tsxPath : List Char := "Icon.tsx".toList

/-- A fragment in the scope of the original C10 claim — the root opening tag
carries a single-quoted width attribute and a viewBox determines a width
target — but with the tag written `<SVG`. -/
def c10bIn : List Char :=
  "<SVG width=".toList ++ sqCh :: "24".toList ++ sqCh ::
    " viewBox=\"0 0 6 6\"></svg>".toList

/-- The transform of `c10bIn` with no options: the namespace insertion
rewrites the case-insensitively matched `<SVG` to the lowercase literal, but
no `width="6"` is inserted — the dimension step's insertion replaces a
case-sensitive `<svg` that the tag does not contain. -/
def c10bOut : List Char :=
  "<svg xmlns=\"http://www.w3.org/2000/svg\" width=".toList ++ sqCh ::
    "24".toList ++ sqCh :: " viewBox=\"0 0 6 6\"></svg>".toList

theorem headSat_iff {p : Char → Bool} {s : List Char} :
    headSat p s = true ↔ ∃ c t, s = c :: t ∧ p c = true := by
  cases s <;> simp [headSat]

theorem hasHead_iff {c : Char} {s : List Char} :
    hasHead c s = true ↔ ∃ t, s = c :: t := by
  cases s with
  | nil => simp [hasHead, headSat]
  | cons d t => simp [hasHead, headSat, eq_comm]

theorem litPref_length {p s : List Char} (h : litPref p s = true) :
    p.length ≤ s.length := by
  induction p generalizing s with
  | nil => simp
  | cons a ps ih =>
    cases s with
    | nil => simp [litPref] at h
    | cons c cs =>
      simp only [litPref, Bool.and_eq_true] at h
      simpa using ih h.2

theorem ciPref_length {p s : List Char} (h : ciPref p s = true) :
    p.length ≤ s.length := by
  induction p generalizing s with
  | nil => simp
  | cons a ps ih =>
    cases s with
    | nil => simp [ciPref] at h
    | cons c cs =>
      simp only [ciPref, Bool.and_eq_true] at h
      simpa using ih h.2

theorem drop_add_append {t rest : List Char} {n : Nat} :
    (t ++ rest).drop (t.length + n) = rest.drop n := by
  induction t with
  | nil => simp
  | cons a t ih =>
    have h : (a :: t).length + n = (t.length + n) + 1 := by
      simp [List.length_cons]
      omega
    rw [h, List.cons_append, List.drop_succ_cons, ih]

theorem selfB_at {try? : List Char → Option (List Char × List Char)}
    {s : List Char} (h : SelfB try? s) {n : Nat} {rep rest : List Char}
    (hn : n ≤ s.length) (he : try? (s.drop n) = some (rep, rest)) :
    rep ++ rest = s.drop n := by
  have h2 := h n hn
  rw [he] at h2
  simpa [optSelfB] using h2

theorem SelfB_of_suffix {try? : List Char → Option (List Char × List Char)}
    {s rest : List Char} (h : SelfB try? s) (hs : rest <:+ s) :
    SelfB try? rest := by
  obtain ⟨t, rfl⟩ := hs
  intro n hn
  have h2 := h (t.length + n) (by simp; omega)
  rwa [drop_add_append] at h2

theorem replaceAllF_nil {try? : List Char → Option (List Char × List Char)}
    (hPT : ProperTail try?) (fuel : Nat) : replaceAllF try? fuel [] = [] := by
  cases fuel with
  | zero => rfl
  | succ f =>
    cases he : try? [] with
    | none => simp [replaceAllF, he]
    | some pr =>
      have := (hPT [] pr.1 pr.2 (by simpa using he)).1
      simp at this

theorem replaceAllF_selfB {try? : List Char → Option (List Char × List Char)}
    (hPT : ProperTail try?) :
    ∀ fuel s, s.length ≤ fuel → SelfB try? s → replaceAllF try? fuel s = s := by
  intro fuel
  induction fuel with
  | zero => intro s _ _; rfl
  | succ f ih =>
    intro s hlen hS
    cases he : try? s with
    | some pr =>
      obtain ⟨rep, rest⟩ := pr
      have heq : rep ++ rest = s := by
        have h0 := selfB_at hS (Nat.zero_le s.length) (by simpa using he)
        simpa using h0
      obtain ⟨hlt, hsuf⟩ := hPT s rep rest he
      have hrest : replaceAllF try? f rest = rest :=
        ih rest (by omega) (SelfB_of_suffix hS hsuf)
      simp [replaceAllF, he, hrest, heq]
    | none =>
      cases s with
      | nil => simp [replaceAllF, he]
      | cons c rest =>
        have hlen2 : rest.length ≤ f := by simp at hlen; omega
        have hrest : replaceAllF try? f rest = rest :=
          ih rest hlen2 (SelfB_of_suffix hS (List.suffix_cons c rest))
        simp [replaceAllF, he, hrest]

theorem replaceAll_selfB {try? : List Char → Option (List Char × List Char)}
    {s : List Char} (hPT : ProperTail try?) (hS : SelfB try? s) :
    replaceAll try? s = s :=
  replaceAllF_selfB hPT s.length s le_rfl hS

theorem replaceFirstO_selfB {try? : List Char → Option (List Char × List Char)} :
    ∀ s : List Char, SelfB try? s → (replaceFirstO try? s).getD s = s := by
  intro s
  induction s with
  | nil =>
    intro hS
    cases he : try? [] with
    | none => simp [replaceFirstO, he]
    | some pr =>
      have heq : pr.1 ++ pr.2 = [] := by
        have h0 := selfB_at hS (Nat.zero_le _) (by simpa using he)
        simpa using h0
      simp [replaceFirstO, he, heq]
  | cons c rest ih =>
    intro hS
    cases he : try? (c :: rest) with
    | some pr =>
      have heq : pr.1 ++ pr.2 = c :: rest := by
        have h0 := selfB_at hS (Nat.zero_le _) (by simpa using he)
        simpa using h0
      simp [replaceFirstO, he, heq]
    | none =>
      have ih2 := ih (SelfB_of_suffix hS (List.suffix_cons c rest))
      cases h2 : replaceFirstO try? rest with
      | none => simp [replaceFirstO, he, h2]
      | some t =>
        rw [h2] at ih2
        simp at ih2
        simp [replaceFirstO, he, h2, ih2]

theorem replaceAllF_irrel {try? : List Char → Option (List Char × List Char)}
    (hPT : ProperTail try?) :
    ∀ f1 f2 s, s.length ≤ f1 → s.length ≤ f2 →
      replaceAllF try? f1 s = replaceAllF try? f2 s := by
  intro f1
  induction f1 with
  | zero =>
    intro f2 s h1 _
    have : s = [] := by
      cases s with
      | nil => rfl
      | cons c r => simp at h1
    subst this
    rw [replaceAllF_nil hPT, replaceAllF_nil hPT]
  | succ f ih =>
    intro f2 s h1 h2
    cases s with
    | nil => rw [replaceAllF_nil hPT, replaceAllF_nil hPT]
    | cons c rest =>
      cases f2 with
      | zero => simp at h2
      | succ g =>
        cases he : try? (c :: rest) with
        | some pr =>
          obtain ⟨rep, rst⟩ := pr
          obtain ⟨hlt, _⟩ := hPT _ rep rst he
          have hre : replaceAllF try? f rst = replaceAllF try? g rst := by
            apply ih <;> simp_all <;> omega
          simp [replaceAllF, he, hre]
        | none =>
          have hre : replaceAllF try? f rest = replaceAllF try? g rest := by
            apply ih <;> simp_all
          simp [replaceAllF, he, hre]

theorem length_tail_lt {s : List Char} (h : s ≠ []) : s.tail.length < s.length := by
  cases s with
  | nil => simp at h
  | cons a t => simp

theorem hasHead_ne_nil {c : Char} {X : List Char} (h : hasHead c X = true) :
    X ≠ [] := by
  obtain ⟨t, rfl⟩ := hasHead_iff.mp h
  simp

theorem properTail_step {X s rest : List Char} (hX : X <:+ s) (hne : X ≠ [])
    (hrest : rest = X.tail) : rest.length < s.length ∧ rest <:+ s := by
  subst hrest
  exact ⟨lt_of_lt_of_le (length_tail_lt hne) hX.length_le,
    (List.tail_suffix X).trans hX⟩

theorem properTail_drop {s : List Char} {k : Nat} (hk : 0 < k) (hs : 0 < s.length) :
    (s.drop k).length < s.length ∧ s.drop k <:+ s := by
  constructor
  · rw [List.length_drop]
    omega
  · exact List.drop_suffix k s

theorem properTail_matchProps : ProperTail matchProps := by
  intro s rep rest h
  cases s with
  | nil => simp [matchProps] at h
  | cons c r0 =>
    simp only [matchProps] at h
    split_ifs at h with h1 h2 h3 h4
    simp only [Option.some.injEq, Prod.mk.injEq] at h
    refine properTail_step ?_ (hasHead_ne_nil h4) h.2.symm
    exact (List.dropWhile_suffix _).trans ((List.drop_suffix _ _).trans
      ((List.dropWhile_suffix _).trans ((List.drop_suffix _ _).trans
        ((List.dropWhile_suffix _).trans (List.suffix_cons _ _)))))

theorem properTail_matchCC (color : List Char) : ProperTail (matchCC color) := by
  intro s rep rest h
  simp only [matchCC] at h
  split_ifs at h with h1
  simp only [Option.some.injEq, Prod.mk.injEq] at h
  have hlen : 12 ≤ s.length := by
    have h2 := ciPref_length h1
    simpa [ccTok] using h2
  rw [← h.2]
  exact properTail_drop (by omega) (by omega)

theorem properTail_matchNum : ProperTail matchNum := by
  intro s rep rest h
  simp only [matchNum] at h
  split_ifs at h
  all_goals simp only [Option.some.injEq, Prod.mk.injEq] at h
  all_goals refine properTail_step ?_ (hasHead_ne_nil (by assumption)) h.2.symm
  all_goals
    first
    | exact (List.dropWhile_suffix _).trans ((List.drop_suffix _ _).trans
        ((List.tail_suffix _).trans ((List.drop_suffix _ _).trans
          ((List.dropWhile_suffix _).trans (List.drop_suffix _ _)))))
    | exact (List.dropWhile_suffix _).trans ((List.drop_suffix _ _).trans
        ((List.dropWhile_suffix _).trans (List.drop_suffix _ _)))

theorem properTail_matchCamelAttr : ProperTail matchCamelAttr := by
  intro s rep rest h
  cases s with
  | nil => simp [matchCamelAttr] at h
  | cons c r0 =>
    simp only [matchCamelAttr] at h
    split_ifs at h with h1 h2 h3
    all_goals simp only [Option.some.injEq, Prod.mk.injEq] at h
    all_goals rw [Bool.and_eq_true] at h2
    all_goals refine properTail_step ?_ (hasHead_ne_nil h2.2) h.2.symm
    all_goals exact (List.drop_suffix _ _).trans (List.suffix_cons _ _)

theorem properTail_matchWsRun : ProperTail matchWsRun := by
  intro s rep rest h
  cases s with
  | nil => simp [matchWsRun] at h
  | cons c r0 =>
    simp only [matchWsRun] at h
    split_ifs at h with h1
    simp only [Option.some.injEq, Prod.mk.injEq] at h
    rw [← h.2]
    constructor
    · have := (List.dropWhile_suffix (l := r0) (p := isWsChar)).length_le
      simp only [List.length_cons]
      omega
    · exact (List.dropWhile_suffix _).trans (List.suffix_cons _ _)

theorem properTail_matchWsGt : ProperTail matchWsGt := by
  intro s rep rest h
  cases s with
  | nil => simp [matchWsGt] at h
  | cons c r0 =>
    simp only [matchWsGt] at h
    split_ifs at h with h1
    simp only [Option.some.injEq, Prod.mk.injEq] at h
    rw [Bool.and_eq_true] at h1
    refine properTail_step ?_ (hasHead_ne_nil h1.2) h.2.symm
    exact (List.dropWhile_suffix _).trans (List.suffix_cons _ _)

theorem properTail_matchWidthAttr (w : List Char) : ProperTail (matchWidthAttr w) := by
  intro s rep rest h
  simp only [matchWidthAttr] at h
  split_ifs at h with h1 h2
  simp only [Option.some.injEq, Prod.mk.injEq] at h
  refine properTail_step ?_ (hasHead_ne_nil h2) h.2.symm
  exact (List.drop_suffix _ _).trans (List.drop_suffix _ _)

theorem properTail_matchHeightAttr (hv : List Char) :
    ProperTail (matchHeightAttr hv) := by
  intro s rep rest h
  simp only [matchHeightAttr] at h
  split_ifs at h with h1 h2
  simp only [Option.some.injEq, Prod.mk.injEq] at h
  refine properTail_step ?_ (hasHead_ne_nil h2) h.2.symm
  exact (List.drop_suffix _ _).trans (List.drop_suffix _ _)

theorem properTail_matchLtSvgIns (ins : List Char) :
    ProperTail (matchLtSvgIns ins) := by
  intro s rep rest h
  simp only [matchLtSvgIns] at h
  split_ifs at h with h1
  simp only [Option.some.injEq, Prod.mk.injEq] at h
  have hlen : 4 ≤ s.length := by
    have h2 := litPref_length h1
    simpa [ltSvg] using h2
  rw [← h.2]
  exact properTail_drop (by omega) (by omega)

theorem properTail_matchLtSvgCIIns : ProperTail matchLtSvgCIIns := by
  intro s rep rest h
  simp only [matchLtSvgCIIns] at h
  split_ifs at h with h1
  simp only [Option.some.injEq, Prod.mk.injEq] at h
  have hlen : 4 ≤ s.length := by
    have h2 := ciPref_length h1
    simpa [ltSvg] using h2
  rw [← h.2]
  exact properTail_drop (by omega) (by omega)

theorem properTail_matchSvgOpenTag : ProperTail matchSvgOpenTag := by
  intro s rep rest h
  simp only [matchSvgOpenTag] at h
  split_ifs at h with h1 h2
  simp only [Option.some.injEq, Prod.mk.injEq] at h
  refine properTail_step ?_ (hasHead_ne_nil h2) h.2.symm
  exact (List.drop_suffix _ _).trans (List.drop_suffix _ _)

theorem properTail_svgTagTry (tw th : Option (List Char)) :
    ProperTail (svgTagTry tw th) := by
  intro s rep rest h
  simp only [svgTagTry, Option.map_eq_some'] at h
  obtain ⟨⟨tag, rst⟩, hm, heq⟩ := h
  have h2 := properTail_matchSvgOpenTag s tag rst hm
  simp only [Prod.mk.injEq] at heq
  rw [← heq.2]
  exact h2

set_option maxRecDepth 100000

/-- C1 (counterexample): on the spec's example fragment, with no options, the
output is not the text the claim states — the claimed text has `"/>` where the
program leaves `" />` (the whitespace-cleanup pattern `\s+>` does not fire
before `/>`). -/
theorem claim1_cex : transformSvg c1In {} ≠ Result.success c1OutClaimed := by
  decide

/-- C1 (amended): on the example fragment with no options, `transformSvg`
succeeds with exactly the claimed text except that the space before `/>` in
`<path d="M1 1" />` is preserved. -/
theorem claim1_thm : transformSvg c1In {} = Result.success c1Out := by
  decide

/-- C2 (counterexample): on a fragment whose `viewBox` value has five
whitespace-separated fields, the claim says no target is determined (the value
does not have the 4-field format) and the existing `width="1"` is left
untouched; the program instead derives `width="7"`/`height="8"` from the 3rd
and 4th fields and rewrites the attribute. -/
theorem claim2_cex :
    transformSvg c2In {} = Result.success c2Out ∧
    hasSub "width=\"1\"".toList c2Out = false ∧
    hasSub "width=\"7\"".toList c2Out = true := by
  decide

/-- C3 (counterexample): deleting an inner placeholder splices a fresh
`{…props}` placeholder, so a second `transformSvg` pass removes it — the two
passes disagree, refuting idempotence as stated. -/
theorem claim3_cex :
    transformSvg c3In {} = Result.success c3Mid ∧
    transformSvg c3Mid {} = Result.success c3Out ∧ c3Out ≠ c3Mid := by
  decide

/-- C4 (counterexample): one input and options value violating three of the
four claimed output guarantees at once — the output still matches the
spread-props pattern (splice), contains two `xmlns=` occurrences (nested
elements suppress the uniqueness the claim asserts), and contains a numeric
`={N}` expression (injected through `options.width`).  The whitespace
guarantee is the only conjunct that survives. -/
theorem claim4_cex :
    transformSvg c4In c4Opts = Result.success c4Out ∧
    anyMatch matchProps c4Out = true ∧
    countSub xmlnsEq c4Out = 2 ∧
    anyMatch matchNum c4Out = true := by
  decide

/-- C7 (counterexample): with the perfectly valid hex color `#00000c`, the
global replacement splices a new case-insensitive `currentColor` occurrence
into the output (`#00000c` + `urrentColor`), refuting the claim that no
occurrence of the token remains. -/
theorem claim7_cex :
    transformSvg c7In { color := some "#00000c".toList } = Result.success c7Out ∧
    anyCI ccTok c7Out = true := by
  decide

/-- C8 (counterexample): the casing normalization is quote-unaware, so the
camelCase shape `fooBar=` inside the attribute value `d="m fooBar=2"` is
kebab-cased, altering an attribute value although no other rewrite applies to
this fragment — refuting the claim that the rewrite never alters attribute
values. -/
theorem claim8_cex :
    transformSvg c8In {} = Result.success c8Out ∧
    hasSub "d=\"m fooBar=2\"".toList c8In = true ∧
    hasSub "d=\"m fooBar=2\"".toList c8Out = false := by
  decide

/-- C9 (counterexample): on a root tag written `<SVG`, a target width/height
is determined from the viewBox, the tag carries no width/height attribute, yet
nothing is inserted: the insertion rewrites a case-sensitive `<svg`, which the
case-insensitively matched tag does not contain.  The output has no `width`
at all, refuting the claim that the attribute is inserted after the tag
name. -/
theorem claim9_cex :
    transformSvg c9In {} = Result.success c9Out ∧
    hasSub "width".toList c9Out = false := by
  decide

/-- C3 (amended): `transformSvg` is the identity on texts that are already in
normalized form — whenever `transformSvg F o` succeeds with `T` and every
rewrite pass of the pipeline is self-replacing on `T` (no placeholder match,
every color-token match already carries the resolved color, no numeric
expression, the opening-tag rewrite reproduces the tag, `xmlns=` present, the
casing pass reproduces every attribute-name match, whitespace already
collapsed with no whitespace before `>`), a second application returns `T`
unchanged.  The counterexample shows that outputs of `transformSvg` are not
always in this form, so idempotence as claimed fails in general. -/
theorem claim3_thm (F T : List Char) (o : TransformOptions)
    (_hFT : transformSvg F o = Result.success T)
    (hProps : SelfB matchProps T)
    (hColor : SelfB (matchCC (resolveColor o)) T)
    (hNum : SelfB matchNum T)
    (hDim : SelfB (svgTagTry (resolveTargets o T).1 (resolveTargets o T).2) T)
    (hXml : hasSub xmlnsEq T = true)
    (hCamel : SelfB matchCamelAttr T)
    (hWs : SelfB matchWsRun T)
    (hGt : SelfB matchWsGt T) :
    transformSvg T o = Result.success T := by
  have e1 : replaceAll matchProps T = T :=
    replaceAll_selfB properTail_matchProps hProps
  have e2 : replaceAll (matchCC (resolveColor o)) T = T :=
    replaceAll_selfB (properTail_matchCC _) hColor
  have e3 : replaceAll matchNum T = T :=
    replaceAll_selfB properTail_matchNum hNum
  have e4 : (replaceFirstO
      (svgTagTry (resolveTargets o T).1 (resolveTargets o T).2) T).getD T = T :=
    replaceFirstO_selfB T hDim
  have e6 : replaceAll matchCamelAttr T = T :=
    replaceAll_selfB properTail_matchCamelAttr hCamel
  have e7 : replaceAll matchWsRun T = T :=
    replaceAll_selfB properTail_matchWsRun hWs
  have e8 : replaceAll matchWsGt T = T :=
    replaceAll_selfB properTail_matchWsGt hGt
  simp only [transformSvg, e1, e2, e3, e4, hXml, e6, e7, e8, ite_self, if_true]

/-- C3 (witness): the normalized output of the spec's example satisfies every
normalized-form hypothesis, and `transformSvg` indeed returns it unchanged. -/
theorem claim3_witness : transformSvg c1Out {} = Result.success c1Out :=
  claim3_thm c1In c1Out {} (by decide) (by decide) (by decide) (by decide)
    (by decide) (by decide) (by decide) (by decide) (by decide)

theorem replaceAllF_append_nomatch {try? : List Char → Option (List Char × List Char)}
    (a rest0 : List Char)
    (h : ∀ n, n < a.length → try? ((a ++ rest0).drop n) = none) :
    ∀ fuel, (a ++ rest0).length ≤ fuel →
      replaceAllF try? fuel (a ++ rest0) =
        a ++ replaceAllF try? (fuel - a.length) rest0 := by
  induction a with
  | nil => intro fuel _; simp
  | cons x a' ih =>
    intro fuel hfuel
    cases fuel with
    | zero => simp at hfuel
    | succ f =>
      have h0 : try? (x :: (a' ++ rest0)) = none := by
        have := h 0 (by simp)
        simpa using this
      have hstep : ∀ n, n < a'.length → try? ((a' ++ rest0).drop n) = none := by
        intro n hn
        have := h (n + 1) (by simp; omega)
        simpa using this
      have hf : (a' ++ rest0).length ≤ f := by
        simp only [List.cons_append, List.length_cons] at hfuel
        omega
      have heq := ih hstep f hf
      have harith : f + 1 - (a'.length + 1) = f - a'.length := by omega
      simp only [List.cons_append, replaceAllF, h0, List.length_cons, harith, heq]

theorem replaceAll_append_nomatch {try? : List Char → Option (List Char × List Char)}
    (a rest0 : List Char)
    (h : ∀ n, n < a.length → try? ((a ++ rest0).drop n) = none) :
    replaceAll try? (a ++ rest0) = a ++ replaceAll try? rest0 := by
  have := replaceAllF_append_nomatch a rest0 h (a ++ rest0).length le_rfl
  simpa [replaceAll, List.length_append] using this

theorem replaceAll_cons_match {try? : List Char → Option (List Char × List Char)}
    (hPT : ProperTail try?) {s rep rest : List Char}
    (h : try? s = some (rep, rest)) :
    replaceAll try? s = rep ++ replaceAll try? rest := by
  obtain ⟨hlt, _⟩ := hPT s rep rest h
  have hpos : 1 ≤ s.length := by omega
  obtain ⟨k, hk⟩ : ∃ k, s.length = k + 1 := ⟨s.length - 1, by omega⟩
  unfold replaceAll
  rw [hk]
  simp only [replaceAllF, h]
  congr 1
  exact replaceAllF_irrel hPT k rest.length rest (by omega) le_rfl

theorem takeWhile_append_stop {p : Char → Bool} {xs : List Char} {y : Char}
    {ys : List Char} (hxs : ∀ x ∈ xs, p x = true) (hy : p y = false) :
    (xs ++ y :: ys).takeWhile p = xs := by
  induction xs with
  | nil => simp [List.takeWhile_cons, hy]
  | cons x xt ih =>
    have hx := hxs x (by simp)
    simp only [List.cons_append, List.takeWhile_cons, hx]
    simp only [if_true]
    rw [ih (fun z hz => hxs z (by simp [hz]))]

theorem matchCamelAttr_head {c : Char} {name b : List Char}
    (hc : isWsChar c = true) (hname : ∀ x ∈ name, isAlphaCh x = true)
    (hlow : headSat isLowerCh name = true) (hup : name.any isUpperCh = true) :
    matchCamelAttr (c :: (name ++ '=' :: b)) =
      some ((if SVG_CAMEL_CASE_ATTRS.contains name then c :: name ++ ['=']
             else ' ' :: camelToKebab name ++ ['=']), b) := by
  obtain ⟨n0, nt, hn, hn0⟩ := headSat_iff.mp hlow
  have htw : (name ++ '=' :: b).takeWhile isAlphaCh = name :=
    takeWhile_append_stop hname (by decide)
  have hdr : (name ++ '=' :: b).drop name.length = '=' :: b := by
    exact List.drop_left name ('=' :: b)
  have hhl : headSat isLowerCh (name ++ '=' :: b) = true := by
    subst hn
    simpa [headSat] using hn0
  have h4 : hasHead '=' ('=' :: b) = true := by
    simp [hasHead, headSat]
  simp only [matchCamelAttr, hc, hhl, htw, hdr, hup, h4, Bool.true_and,
    Bool.and_true, Bool.and_self, if_true, List.tail_cons]
  split_ifs <;> rfl

theorem drop_append_cons_of_lt {a X : List Char} {n : Nat} (hn : n < a.length) :
    (a ++ X).drop n = a.get ⟨n, hn⟩ :: (a.drop (n + 1) ++ X) := by
  rw [List.drop_append_eq_append_drop, Nat.sub_eq_zero_of_le (le_of_lt hn),
    List.drop_zero]
  rw [List.drop_eq_getElem_cons hn, List.cons_append]
  simp

/-- C8 (amended): the casing normalization rewrites every attribute-name
token of the textual shape (a whitespace character, a maximal letter run
starting lowercase and containing an uppercase letter, then `=`): the name is
kebab-cased unless it is in the fixed allow-list, in which case the match is
kept verbatim; everything before the token (here constrained to contain no
whitespace, so no other match can start there — in particular element/tag
names, which directly follow `<`) passes through unchanged.  The rewrite is
quote-unaware, so the shape is also rewritten inside attribute values (see
the counterexample), which is the respect in which the original claim fails. -/
theorem claim8_thm (a b name : List Char) (c : Char)
    (ha : ∀ ch ∈ a, isWsChar ch = false)
    (hc : isWsChar c = true)
    (hname : ∀ x ∈ name, isAlphaCh x = true)
    (hlow : headSat isLowerCh name = true)
    (hup : name.any isUpperCh = true) :
    (SVG_CAMEL_CASE_ATTRS.contains name = false →
      replaceAll matchCamelAttr (a ++ c :: (name ++ '=' :: b)) =
        a ++ ((' ' :: camelToKebab name ++ ['=']) ++ replaceAll matchCamelAttr b)) ∧
    (SVG_CAMEL_CASE_ATTRS.contains name = true →
      replaceAll matchCamelAttr (a ++ c :: (name ++ '=' :: b)) =
        a ++ ((c :: name ++ ['=']) ++ replaceAll matchCamelAttr b)) := by
  have hsplit : replaceAll matchCamelAttr (a ++ c :: (name ++ '=' :: b)) =
      a ++ replaceAll matchCamelAttr (c :: (name ++ '=' :: b)) := by
    apply replaceAll_append_nomatch
    intro n hn
    rw [drop_append_cons_of_lt hn]
    have hx := ha (a.get ⟨n, hn⟩) (List.get_mem a n hn)
    simp only [List.get_eq_getElem] at hx
    simp [matchCamelAttr, hx]
  have hm := matchCamelAttr_head (b := b) hc hname hlow hup
  constructor
  · intro hno
    rw [hno] at hm
    simp only [Bool.false_eq_true, if_false] at hm
    rw [hsplit, replaceAll_cons_match properTail_matchCamelAttr hm]
  · intro hyes
    rw [hyes] at hm
    simp only [if_true] at hm
    rw [hsplit, replaceAll_cons_match properTail_matchCamelAttr hm]

/-- C8 (witness): a concrete non-allow-listed token `fillRule=` is
kebab-cased to `fill-rule=`, and the allow-listed `viewBox=` is kept
verbatim. -/
theorem claim8_witness :
    (replaceAll matchCamelAttr
        ("<svg".toList ++ ' ' :: ("fillRule".toList ++ '=' :: "\"evenodd\"/>".toList)) =
      "<svg".toList ++ ((' ' :: camelToKebab "fillRule".toList ++ ['=']) ++
        replaceAll matchCamelAttr "\"evenodd\"/>".toList)) ∧
    (replaceAll matchCamelAttr
        ("<svg".toList ++ ' ' :: ("viewBox".toList ++ '=' :: "\"0 0 24 24\"".toList)) =
      "<svg".toList ++ ((' ' :: "viewBox".toList ++ ['=']) ++
        replaceAll matchCamelAttr "\"0 0 24 24\"".toList)) :=
  ⟨(claim8_thm "<svg".toList "\"evenodd\"/>".toList "fillRule".toList ' '
      (by decide) (by decide) (by decide) (by decide) (by decide)).1 (by decide),
   (claim8_thm "<svg".toList "\"0 0 24 24\"".toList "viewBox".toList ' '
      (by decide) (by decide) (by decide) (by decide) (by decide)).2 (by decide)⟩

theorem litPref_self_append {p x : List Char} : litPref p (p ++ x) = true := by
  induction p with
  | nil => rfl
  | cons a ps ih => simp [litPref, ih]

theorem replaceFirstO_match {try? : List Char → Option (List Char × List Char)}
    {s rep rest : List Char} (h : try? s = some (rep, rest)) :
    replaceFirstO try? s = some (rep ++ rest) := by
  cases s <;> simp [replaceFirstO, h]

theorem replaceFirstO_none {try? : List Char → Option (List Char × List Char)} :
    ∀ s : List Char, (∀ n, n ≤ s.length → try? (s.drop n) = none) →
      replaceFirstO try? s = none := by
  intro s
  induction s with
  | nil =>
    intro h
    have h0 : try? [] = none := by simpa using h 0 (by simp)
    simp [replaceFirstO, h0]
  | cons c rest ih =>
    intro h
    have h0 : try? (c :: rest) = none := by simpa using h 0 (by simp)
    have hr : ∀ n, n ≤ rest.length → try? (rest.drop n) = none := by
      intro n hn
      have := h (n + 1) (by simp; omega)
      simpa using this
    simp [replaceFirstO, h0, ih hr]

theorem replaceFirstO_append_nomatch
    {try? : List Char → Option (List Char × List Char)} :
    ∀ a rest0 : List Char,
      (∀ n, n < a.length → try? ((a ++ rest0).drop n) = none) →
      replaceFirstO try? (a ++ rest0) =
        (replaceFirstO try? rest0).map (fun t => a ++ t) := by
  intro a
  induction a with
  | nil =>
    intro rest0 _
    cases hr : replaceFirstO try? rest0 <;> simp [hr]
  | cons x a' ih =>
    intro rest0 h
    have h0 : try? (x :: (a' ++ rest0)) = none := by simpa using h 0 (by simp)
    have hstep : ∀ n, n < a'.length → try? ((a' ++ rest0).drop n) = none := by
      intro n hn
      have := h (n + 1) (by simp; omega)
      simpa using this
    simp only [List.cons_append]
    have e1 : replaceFirstO try? (x :: (a' ++ rest0)) =
        (replaceFirstO try? (a' ++ rest0)).map (fun t => x :: t) := by
      simp [replaceFirstO, h0]
    rw [e1, ih rest0 hstep]
    cases replaceFirstO try? rest0 <;> simp

theorem matchSvgOpenTag_tag {c1 c2 c3 c4 : Char} {body post : List Char}
    (hci : ciPref ltSvg [c1, c2, c3, c4] = true)
    (hbody : ∀ x ∈ body, x ≠ '>') :
    matchSvgOpenTag (c1 :: c2 :: c3 :: c4 :: (body ++ '>' :: post)) =
      some ((c1 :: c2 :: c3 :: c4 :: body) ++ ['>'], post) := by
  have hci2 : ciPref ltSvg (c1 :: c2 :: c3 :: c4 :: (body ++ '>' :: post)) = true := by
    simp only [ciPref, ltSvg, Bool.and_eq_true] at hci ⊢
    simp [hci]
  have htw : (body ++ '>' :: post).takeWhile (fun c => c ≠ '>') = body :=
    takeWhile_append_stop (fun x hx => by simpa using hbody x hx) (by decide)
  have hdl : (body ++ '>' :: post).drop body.length = '>' :: post :=
    List.drop_left body _
  have h4 : hasHead '>' ('>' :: post) = true := by simp [hasHead, headSat]
  simp only [matchSvgOpenTag, hci2, if_true, List.drop_succ_cons, List.drop_zero,
    htw, hdl, h4, List.tail_cons, List.take_succ_cons, List.take_zero]
  simp

theorem matchWidthAttr_at {w v b2 : List Char} (hv : ∀ x ∈ v, x ≠ '"') :
    matchWidthAttr w (widthQ ++ (v ++ '"' :: b2)) = some (widthQ ++ w ++ ['"'], b2) := by
  have hlit : litPref widthQ (widthQ ++ (v ++ '"' :: b2)) = true := litPref_self_append
  have hd7 : (widthQ ++ (v ++ '"' :: b2)).drop 7 = v ++ '"' :: b2 := by
    have : (7 : Nat) = widthQ.length := by decide
    rw [this, List.drop_left]
  have htw : (v ++ '"' :: b2).takeWhile (fun c => c ≠ '"') = v :=
    takeWhile_append_stop (fun x hx => by simpa using hv x hx) (by decide)
  have hdl : (v ++ '"' :: b2).drop v.length = '"' :: b2 := List.drop_left v _
  have hq : hasHead '"' ('"' :: b2) = true := by simp [hasHead, headSat]
  simp only [matchWidthAttr, hlit, if_true, hd7, htw, hdl, hq, List.tail_cons]

theorem matchHeightAttr_at {hv v b2 : List Char} (hvq : ∀ x ∈ v, x ≠ '"') :
    matchHeightAttr hv (heightQ ++ (v ++ '"' :: b2)) =
      some (heightQ ++ hv ++ ['"'], b2) := by
  have hlit : litPref heightQ (heightQ ++ (v ++ '"' :: b2)) = true := litPref_self_append
  have hd8 : (heightQ ++ (v ++ '"' :: b2)).drop 8 = v ++ '"' :: b2 := by
    have : (8 : Nat) = heightQ.length := by decide
    rw [this, List.drop_left]
  have htw : (v ++ '"' :: b2).takeWhile (fun c => c ≠ '"') = v :=
    takeWhile_append_stop (fun x hx => by simpa using hvq x hx) (by decide)
  have hdl : (v ++ '"' :: b2).drop v.length = '"' :: b2 := List.drop_left v _
  have hq : hasHead '"' ('"' :: b2) = true := by simp [hasHead, headSat]
  simp only [matchHeightAttr, hlit, if_true, hd8, htw, hdl, hq, List.tail_cons]

theorem matchSvgOpenTag_none {s : List Char} (h : ciPref ltSvg s = false) :
    matchSvgOpenTag s = none := by
  simp [matchSvgOpenTag, h]

theorem svgTagTry_none {tw th : Option (List Char)} {s : List Char}
    (h : ciPref ltSvg s = false) : svgTagTry tw th s = none := by
  simp [svgTagTry, matchSvgOpenTag_none h]

theorem injectWidth_inplace {w a v b2 : List Char}
    (ha : ∀ n, n < a.length →
      matchWidthAttr w ((a ++ (widthQ ++ (v ++ '"' :: b2))).drop n) = none)
    (hv : ∀ x ∈ v, x ≠ '"') :
    injectWidth w (a ++ (widthQ ++ (v ++ '"' :: b2))) =
      a ++ ((widthQ ++ w ++ ['"']) ++ b2) := by
  have hm := @matchWidthAttr_at w v b2 hv
  have hr := replaceFirstO_append_nomatch a (widthQ ++ (v ++ '"' :: b2)) ha
  rw [replaceFirstO_match hm] at hr
  simp only [Option.map_some'] at hr
  simp [injectWidth, hr]

theorem injectWidth_insert {w body : List Char}
    (hnone : ∀ n, n ≤ ('<' :: 's' :: 'v' :: 'g' :: body).length →
      matchWidthAttr w (('<' :: 's' :: 'v' :: 'g' :: body).drop n) = none) :
    injectWidth w ('<' :: 's' :: 'v' :: 'g' :: body) =
      (ltSvg ++ ' ' :: widthQ ++ w ++ ['"']) ++ body := by
  have h1 : replaceFirstO (matchWidthAttr w) ('<' :: 's' :: 'v' :: 'g' :: body) = none :=
    replaceFirstO_none _ hnone
  have h2 : matchLtSvgIns (ltSvg ++ ' ' :: widthQ ++ w ++ ['"'])
      ('<' :: 's' :: 'v' :: 'g' :: body) =
      some (ltSvg ++ ' ' :: widthQ ++ w ++ ['"'], body) := by
    simp [matchLtSvgIns, litPref, ltSvg, ciEq]
  have h3 := replaceFirstO_match h2
  simp only [injectWidth, h1]
  simp only [List.append_assoc, List.cons_append, List.singleton_append] at h3 ⊢
  simp [h3]

theorem injectHeight_insert {hv body : List Char}
    (hnone : ∀ n, n ≤ ('<' :: 's' :: 'v' :: 'g' :: body).length →
      matchHeightAttr hv (('<' :: 's' :: 'v' :: 'g' :: body).drop n) = none) :
    injectHeight hv ('<' :: 's' :: 'v' :: 'g' :: body) =
      (ltSvg ++ ' ' :: heightQ ++ hv ++ ['"']) ++ body := by
  have h1 : replaceFirstO (matchHeightAttr hv) ('<' :: 's' :: 'v' :: 'g' :: body) = none :=
    replaceFirstO_none _ hnone
  have h2 : matchLtSvgIns (ltSvg ++ ' ' :: heightQ ++ hv ++ ['"'])
      ('<' :: 's' :: 'v' :: 'g' :: body) =
      some (ltSvg ++ ' ' :: heightQ ++ hv ++ ['"'], body) := by
    simp [matchLtSvgIns, litPref, ltSvg, ciEq]
  have h3 := replaceFirstO_match h2
  simp only [injectHeight, h1]
  simp only [List.append_assoc, List.cons_append, List.singleton_append] at h3 ⊢
  simp [h3]

/-- C9 (amended): the dimension-injection step (the single replacement of the
first case-insensitive opening `<svg…>` tag by the `injectDims` callback)
rewrites only that root opening tag: every character before it (no earlier
position opens a `<svg`) and after its closing `>` is left unchanged (first
conjunct, the frame property).  Inside the tag, when the target width is set
and no double-quoted `width="…"` attribute occurs, the attribute is inserted
immediately after the tag name provided the tag starts with the
case-sensitive lowercase `<svg` (second conjunct); when a double-quoted
width attribute exists, its first occurrence is rewritten in place (third
conjunct).  The original claim fails only for differently-cased root tags,
where the insertion silently does nothing (see the counterexample). -/
theorem claim9_thm :
    (∀ (tw th : Option (List Char)) (pre : List Char) (c1 c2 c3 c4 : Char)
        (body post : List Char),
      (∀ n, n < pre.length →
        ciPref ltSvg
          ((pre ++ c1 :: c2 :: c3 :: c4 :: (body ++ '>' :: post)).drop n) = false) →
      ciPref ltSvg [c1, c2, c3, c4] = true →
      (∀ x ∈ body, x ≠ '>') →
      (replaceFirstO (svgTagTry tw th)
          (pre ++ c1 :: c2 :: c3 :: c4 :: (body ++ '>' :: post))).getD
          (pre ++ c1 :: c2 :: c3 :: c4 :: (body ++ '>' :: post)) =
        pre ++ (injectDims tw th ((c1 :: c2 :: c3 :: c4 :: body) ++ ['>']) ++ post)) ∧
    (∀ w body : List Char, w.isEmpty = false →
      (∀ n, n ≤ ('<' :: 's' :: 'v' :: 'g' :: body).length →
        matchWidthAttr w (('<' :: 's' :: 'v' :: 'g' :: body).drop n) = none) →
      injectDims (some w) none ('<' :: 's' :: 'v' :: 'g' :: body) =
        (ltSvg ++ ' ' :: widthQ ++ w ++ ['"']) ++ body) ∧
    (∀ w a v b2 : List Char, w.isEmpty = false →
      (∀ n, n < a.length →
        matchWidthAttr w ((a ++ (widthQ ++ (v ++ '"' :: b2))).drop n) = none) →
      (∀ x ∈ v, x ≠ '"') →
      injectDims (some w) none (a ++ (widthQ ++ (v ++ '"' :: b2))) =
        a ++ ((widthQ ++ w ++ ['"']) ++ b2)) := by
  refine ⟨?_, ?_, ?_⟩
  · intro tw th pre c1 c2 c3 c4 body post hpre hci hbody
    have hnm : ∀ n, n < pre.length →
        svgTagTry tw th
          ((pre ++ c1 :: c2 :: c3 :: c4 :: (body ++ '>' :: post)).drop n) = none := by
      intro n hn
      exact svgTagTry_none (hpre n hn)
    have hr := replaceFirstO_append_nomatch pre _ hnm
    have hm : svgTagTry tw th (c1 :: c2 :: c3 :: c4 :: (body ++ '>' :: post)) =
        some (injectDims tw th ((c1 :: c2 :: c3 :: c4 :: body) ++ ['>']), post) := by
      simp [svgTagTry, matchSvgOpenTag_tag hci hbody]
    rw [replaceFirstO_match hm] at hr
    simp only [Option.map_some'] at hr
    simp [hr]
  · intro w body hw hnone
    simp only [injectDims, hw, Bool.false_eq_true, if_false]
    exact injectWidth_insert hnone
  · intro w a v b2 hw ha hv
    simp only [injectDims, hw, Bool.false_eq_true, if_false]
    exact injectWidth_inplace ha hv

/-- C9 (witness): concrete instances of the three conjuncts — the frame
property around a root tag embedded in other text, the insertion after a
lowercase `<svg`, and the in-place rewrite of an existing double-quoted
width attribute. -/
theorem claim9_witness :
    ((replaceFirstO (svgTagTry (some ['6']) none)
        ("ab".toList ++ '<' :: 's' :: 'v' :: 'g' :: (" x=\"1\"".toList ++ '>' :: "tail".toList))).getD
        ("ab".toList ++ '<' :: 's' :: 'v' :: 'g' :: (" x=\"1\"".toList ++ '>' :: "tail".toList)) =
      "ab".toList ++
        (injectDims (some ['6']) none (('<' :: 's' :: 'v' :: 'g' :: " x=\"1\"".toList) ++ ['>'])
          ++ "tail".toList)) ∧
    (injectDims (some ['6']) none ('<' :: 's' :: 'v' :: 'g' :: " viewBox=\"0 0 6 6\">".toList) =
      (ltSvg ++ ' ' :: widthQ ++ ['6'] ++ ['"']) ++ " viewBox=\"0 0 6 6\">".toList) ∧
    (injectDims (some ['7']) none (" a=\"b\" ".toList ++ (widthQ ++ ("1".toList ++ '"' :: "/>".toList))) =
      " a=\"b\" ".toList ++ ((widthQ ++ ['7'] ++ ['"']) ++ "/>".toList)) :=
  ⟨claim9_thm.1 (some ['6']) none "ab".toList '<' 's' 'v' 'g' " x=\"1\"".toList
      "tail".toList (by decide) (by decide) (by decide),
   claim9_thm.2.1 ['6'] " viewBox=\"0 0 6 6\">".toList (by decide) (by decide),
   claim9_thm.2.2 ['7'] " a=\"b\" ".toList "1".toList "/>".toList
      (by decide) (by decide) (by decide)⟩

/-- C10 (amended): when the root opening tag begins with the case-sensitive
lowercase `<svg` and carries its width attribute in single
quotes (so the double-quoted pattern `width="…"` matches nowhere in the tag),
the in-place branch of the injection is not taken; the double-quoted
`width="w"` is inserted right after the tag name instead, and the resulting
tag contains both the new double-quoted attribute and the untouched
single-quoted one.  The second conjunct adds a determined height target: the
height attribute is inserted as well (before the width, by the same `<svg`
replacement) and both width attributes are still present.  The final conjunct
checks the concrete end-to-end behavior of `transformSvg` on such a
fragment. -/
theorem claim10_thm (w v b1 b2 : List Char) (hw : w.isEmpty = false)
    (hnw : ∀ n, n ≤ ('<' :: 's' :: 'v' :: 'g' ::
        (b1 ++ ("width=".toList ++ sqCh :: v ++ sqCh :: b2))).length →
      matchWidthAttr w (('<' :: 's' :: 'v' :: 'g' ::
        (b1 ++ ("width=".toList ++ sqCh :: v ++ sqCh :: b2))).drop n) = none) :
    (injectDims (some w) none ('<' :: 's' :: 'v' :: 'g' ::
        (b1 ++ ("width=".toList ++ sqCh :: v ++ sqCh :: b2))) =
      (ltSvg ++ ' ' :: widthQ ++ w ++ ['"']) ++
        (b1 ++ ("width=".toList ++ sqCh :: v ++ sqCh :: b2))) ∧
    (∃ x y, injectDims (some w) none ('<' :: 's' :: 'v' :: 'g' ::
        (b1 ++ ("width=".toList ++ sqCh :: v ++ sqCh :: b2))) =
      x ++ ("width=".toList ++ sqCh :: v ++ [sqCh]) ++ y) ∧
    (∃ x y, injectDims (some w) none ('<' :: 's' :: 'v' :: 'g' ::
        (b1 ++ ("width=".toList ++ sqCh :: v ++ sqCh :: b2))) =
      x ++ (widthQ ++ w ++ ['"']) ++ y) ∧
    transformSvg c10In {} = Result.success c10Out := by
  have h1 : injectDims (some w) none ('<' :: 's' :: 'v' :: 'g' ::
      (b1 ++ ("width=".toList ++ sqCh :: v ++ sqCh :: b2))) =
      (ltSvg ++ ' ' :: widthQ ++ w ++ ['"']) ++
        (b1 ++ ("width=".toList ++ sqCh :: v ++ sqCh :: b2)) := by
    simp only [injectDims, hw, Bool.false_eq_true, if_false]
    exact injectWidth_insert hnw
  refine ⟨h1, ?_, ?_, by decide⟩
  · refine ⟨(ltSvg ++ ' ' :: widthQ ++ w ++ ['"']) ++ b1, b2, ?_⟩
    rw [h1]
    simp [List.append_assoc]
  · refine ⟨ltSvg ++ [' '],
      b1 ++ ("width=".toList ++ sqCh :: v ++ sqCh :: b2), ?_⟩
    rw [h1]
    simp [List.append_assoc]

/-- C10 (witness): the concrete root tag with a single-quoted width attribute
gets the double-quoted attribute inserted and keeps the old one. -/
theorem claim10_witness :
    injectDims (some ['8']) none ('<' :: 's' :: 'v' :: 'g' ::
        (" ".toList ++ ("width=".toList ++ sqCh :: ['2', '4'] ++ sqCh :: "/>".toList))) =
      (ltSvg ++ ' ' :: widthQ ++ ['8'] ++ ['"']) ++
        (" ".toList ++ ("width=".toList ++ sqCh :: ['2', '4'] ++ sqCh :: "/>".toList)) :=
  (claim10_thm ['8'] ['2', '4'] " ".toList "/>".toList (by decide) (by decide)).1

theorem ciEq_refl (a : Char) : ciEq a a = true := by
  simp [ciEq]

theorem ciPref_self_append {p x : List Char} : ciPref p (p ++ x) = true := by
  induction p with
  | nil => rfl
  | cons a ps ih => simp [ciPref, ciEq_refl, ih]

theorem matchVB_at {q q2 : Char} {v post : List Char}
    (hq : isQuoteCh q = true) (hq2 : isQuoteCh q2 = true) (hv : v ≠ [])
    (hvq : ∀ x ∈ v, isQuoteCh x = false) :
    matchVB (vbLit ++ q :: (v ++ q2 :: post)) = some v := by
  have hci : ciPref vbLit (vbLit ++ q :: (v ++ q2 :: post)) = true := ciPref_self_append
  have h8 : (vbLit ++ q :: (v ++ q2 :: post)).drop 8 = q :: (v ++ q2 :: post) := by
    have he : (8 : Nat) = vbLit.length := by decide
    rw [he, List.drop_left]
  have h9 : (vbLit ++ q :: (v ++ q2 :: post)).drop 9 = v ++ q2 :: post := by
    have he : (9 : Nat) = vbLit.length + 1 := by decide
    rw [he, drop_add_append]
    rfl
  have hhq : headSat isQuoteCh (q :: (v ++ q2 :: post)) = true := by
    simp [headSat, hq]
  have htw : (v ++ q2 :: post).takeWhile (fun c => !isQuoteCh c) = v := by
    refine takeWhile_append_stop ?_ ?_
    · intro x hx
      simp [hvq x hx]
    · simp [hq2]
  have hvne : v.isEmpty = false := by
    cases v with
    | nil => simp at hv
    | cons a t => rfl
  have hdl : (v ++ q2 :: post).drop v.length = q2 :: post := List.drop_left v _
  have hq2h : headSat isQuoteCh (q2 :: post) = true := by simp [headSat, hq2]
  simp only [matchVB, hci, h8, hhq, Bool.and_self, if_true, h9, htw, hvne,
    Bool.false_eq_true, if_false, hdl, hq2h, Bool.true_and]

theorem searchVB_match {s v : List Char} (h : matchVB s = some v) :
    searchVB s = some v := by
  cases s with
  | nil =>
    have h0 : matchVB [] = none := by decide
    rw [h0] at h
    exact Option.noConfusion h
  | cons c rest => simp [searchVB, h]

theorem searchVB_append_nomatch :
    ∀ pre X : List Char,
      (∀ n, n < pre.length → matchVB ((pre ++ X).drop n) = none) →
      searchVB (pre ++ X) = searchVB X := by
  intro pre
  induction pre with
  | nil => intro X _; simp
  | cons x p' ih =>
    intro X h
    have h0 : matchVB (x :: (p' ++ X)) = none := by simpa using h 0 (by simp)
    have hstep : ∀ n, n < p'.length → matchVB ((p' ++ X).drop n) = none := by
      intro n hn
      have := h (n + 1) (by simp; omega)
      simpa using this
    simp [searchVB, h0, ih X hstep]

theorem searchVB_none :
    ∀ s : List Char, (∀ n, n ≤ s.length → matchVB (s.drop n) = none) →
      searchVB s = none := by
  intro s
  induction s with
  | nil => intro _; rfl
  | cons c rest ih =>
    intro h
    have h0 : matchVB (c :: rest) = none := by simpa using h 0 (by simp)
    have hr : ∀ n, n ≤ rest.length → matchVB (rest.drop n) = none := by
      intro n hn
      have := h (n + 1) (by simp; omega)
      simpa using this
    simp [searchVB, h0, ih hr]

/-- C2 (amended): how the target dimensions are actually resolved.
First conjunct: on a text whose first viewBox-pattern occurrence is
`viewBox=` followed by a quote, a nonempty quote-free value `v`, and a quote,
`extractViewBoxDimensions` splits `v` on whitespace runs with JavaScript
`split` semantics (a leading run contributes an initial empty field, a
trailing run a final one) and, whenever that split has at least four fields
— not exactly four, as the claim states — returns fields 2 and 3 (0-based)
as width and height.  Second conjunct: with no viewBox occurrence nothing is
derived.  Remaining conjuncts: a supplied option overrides only when it is a
nonempty string, and an untruthy option falls back to the corresponding
viewBox-derived field only when that field is itself present and nonempty,
keeping the option value otherwise. -/
theorem claim2_thm :
    (∀ (pre v post : List Char) (q q2 : Char),
      (∀ n, n < pre.length →
        matchVB ((pre ++ (vbLit ++ q :: (v ++ q2 :: post))).drop n) = none) →
      isQuoteCh q = true → isQuoteCh q2 = true → v ≠ [] →
      (∀ x ∈ v, isQuoteCh x = false) →
      extractViewBoxDimensions (pre ++ (vbLit ++ q :: (v ++ q2 :: post))) =
        (if (splitWs v).length ≥ 4 then
          { width := (splitWs v).get? 2, height := (splitWs v).get? 3 }
         else {})) ∧
    (∀ s : List Char, (∀ n, n ≤ s.length → matchVB (s.drop n) = none) →
      extractViewBoxDimensions s = {}) ∧
    (∀ (o : TransformOptions) (t3 : List Char), truthy o.width = true →
      (resolveTargets o t3).1 = o.width) ∧
    (∀ (o : TransformOptions) (t3 : List Char), truthy o.height = true →
      (resolveTargets o t3).2 = o.height) ∧
    (∀ (o : TransformOptions) (t3 : List Char), truthy o.width = false →
      (resolveTargets o t3).1 =
        (if truthy (extractViewBoxDimensions t3).width then
          (extractViewBoxDimensions t3).width
         else o.width)) ∧
    (∀ (o : TransformOptions) (t3 : List Char), truthy o.height = false →
      (resolveTargets o t3).2 =
        (if truthy (extractViewBoxDimensions t3).height then
          (extractViewBoxDimensions t3).height
         else o.height)) := by
  refine ⟨?_, ?_, ?_, ?_, ?_, ?_⟩
  · intro pre v post q q2 hpre hq hq2 hv hvq
    have hs := searchVB_append_nomatch pre (vbLit ++ q :: (v ++ q2 :: post)) hpre
    rw [searchVB_match (matchVB_at hq hq2 hv hvq)] at hs
    simp [extractViewBoxDimensions, hs]
  · intro s h
    simp [extractViewBoxDimensions, searchVB_none s h]
  · intro o t3 hw
    cases hh : truthy o.height <;>
      simp [resolveTargets, hw, hh]
  · intro o t3 hh
    cases hw : truthy o.width <;>
      simp [resolveTargets, hw, hh]
  · intro o t3 hw
    cases ht : truthy (extractViewBoxDimensions t3).width <;>
      simp [resolveTargets, hw, ht]
  · intro o t3 hh
    cases ht : truthy (extractViewBoxDimensions t3).height <;>
      cases hw : truthy o.width <;>
        simp [resolveTargets, hw, hh, ht]

/-- C2 (witness): concrete instances — a five-field viewBox value yields
fields 2 and 3 (`7` and `8`); a text with no viewBox attribute yields
nothing; a nonempty explicit width overrides; an empty-string width falls
back to the derived field. -/
theorem claim2_witness :
    (extractViewBoxDimensions ("<svg ".toList ++ (vbLit ++ '"' :: ("0 0 7 8 9".toList ++ '"' :: "/>".toList))) =
      (if (splitWs "0 0 7 8 9".toList).length ≥ 4 then
        { width := (splitWs "0 0 7 8 9".toList).get? 2,
          height := (splitWs "0 0 7 8 9".toList).get? 3 }
       else {})) ∧
    (extractViewBoxDimensions "<svg fill=\"red\"/>".toList = {}) ∧
    ((resolveTargets { width := some ['3', '2'] } "<svg/>".toList).1 = some ['3', '2']) ∧
    ((resolveTargets { width := some [] } c2In).1 =
      (if truthy (extractViewBoxDimensions c2In).width then
        (extractViewBoxDimensions c2In).width
       else some [])) :=
  ⟨claim2_thm.1 "<svg ".toList "0 0 7 8 9".toList "/>".toList '"' '"'
      (by decide) (by decide) (by decide) (by decide) (by decide),
   claim2_thm.2.1 "<svg fill=\"red\"/>".toList (by decide),
   claim2_thm.2.2.1 { width := some ['3', '2'] } "<svg/>".toList (by decide),
   claim2_thm.2.2.2.2.1 { width := some [] } c2In (by decide)⟩

theorem ciPref_nil {pat : List Char} (hp : pat ≠ []) : ciPref pat [] = false := by
  cases pat with
  | nil => simp at hp
  | cons a t => rfl

theorem splitAtCI_none_iff {pat : List Char} (hp : pat ≠ []) :
    ∀ s : List Char,
      (splitAtCI pat s = none ↔ ∀ n, ciPref pat (s.drop n) = false) := by
  intro s
  induction s with
  | nil =>
    simp [splitAtCI, ciPref_nil hp]
  | cons c rest ih =>
    by_cases hc : ciPref pat (c :: rest) = true
    · simp only [splitAtCI, hc, if_true]
      constructor
      · intro h
        exact Option.noConfusion h
      · intro h
        have := h 0
        simp [hc] at this
    · have hc2 : ciPref pat (c :: rest) = false := by
        cases h2 : ciPref pat (c :: rest)
        · rfl
        · exact absurd h2 hc
      simp only [splitAtCI, hc2, Bool.false_eq_true, if_false]
      constructor
      · intro h n
        cases n with
        | zero => simpa using hc2
        | succ m =>
          have h2 : splitAtCI pat rest = none := by
            cases h3 : splitAtCI pat rest
            · rfl
            · rw [h3] at h
              simp at h
          have := (ih.mp h2) m
          simpa using this
      · intro h
        have h2 : splitAtCI pat rest = none := by
          apply ih.mpr
          intro n
          have := h (n + 1)
          simpa using this
        simp [h2]

theorem splitAtCI_some {pat : List Char} :
    ∀ {s mid fc : List Char}, splitAtCI pat s = some (mid, fc) →
      s = mid ++ fc ∧ ciPref pat fc = true := by
  intro s
  induction s with
  | nil =>
    intro mid fc h
    simp only [splitAtCI] at h
    split_ifs at h with h1
    · simp only [Option.some.injEq, Prod.mk.injEq] at h
      exact ⟨by simp [← h.1, ← h.2], by rw [← h.2]; exact h1⟩
  | cons c rest ih =>
    intro mid fc h
    simp only [splitAtCI] at h
    split_ifs at h with h1
    · simp only [Option.some.injEq, Prod.mk.injEq] at h
      refine ⟨by simp [← h.1, ← h.2], by rw [← h.2]; exact h1⟩
    · cases h2 : splitAtCI pat rest with
      | none => rw [h2] at h; simp at h
      | some pr =>
        rw [h2] at h
        obtain ⟨m2, f2⟩ := pr
        simp only [Option.map_some', Option.some.injEq, Prod.mk.injEq] at h
        obtain ⟨hm, hf⟩ := h
        obtain ⟨he, hc⟩ := ih h2
        subst hf
        refine ⟨?_, hc⟩
        rw [← hm]
        simp [he]

theorem matchSvgFrag_none_iff {s : List Char} :
    matchSvgFrag s = none ↔ ¬ HeadPair s := by
  unfold matchSvgFrag HeadPair
  cases hA : ciPref ltSvg s
  · simp [hA]
  · cases hB : headSat (fun c => isWsChar c || c = '>') (s.drop 4)
    · simp [hA, hB]
    · simp only [hA, hB, Bool.and_self, if_true, true_and]
      cases hs : splitAtCI closeSvg (s.drop 5) with
      | none =>
        have hn := (splitAtCI_none_iff (by decide) (s.drop 5)).mp hs
        simp only [true_iff]
        intro hex
        obtain ⟨m, hm⟩ := hex
        rw [hn m] at hm
        exact Bool.noConfusion hm
      | some pr =>
        obtain ⟨mid, fc⟩ := pr
        obtain ⟨he, hc⟩ := splitAtCI_some hs
        have hm : ciPref closeSvg ((s.drop 5).drop mid.length) = true := by
          rw [he, List.drop_left]
          exact hc
        simp only [List.drop_drop] at hm
        simp
        refine ⟨mid.length, ?_⟩
        exact hm

theorem searchSvgFrag_none_iff : ∀ {txt : List Char},
    searchSvgFrag txt = none ↔ ¬ SvgPairAt txt := by
  intro txt
  induction txt with
  | nil =>
    simp only [searchSvgFrag, true_iff]
    intro hp
    obtain ⟨n, h1, _, _⟩ := hp
    rw [List.drop_nil] at h1
    exact absurd h1 (by decide)
  | cons c rest ih =>
    have hpair : SvgPairAt (c :: rest) ↔ HeadPair (c :: rest) ∨ SvgPairAt rest := by
      constructor
      · rintro ⟨n, h1, h2, h3⟩
        cases n with
        | zero => exact Or.inl ⟨by simpa using h1, by simpa using h2, by simpa using h3⟩
        | succ m => exact Or.inr ⟨m, by simpa using h1, by simpa using h2, by simpa using h3⟩
      · rintro (⟨h1, h2, h3⟩ | ⟨m, h1, h2, h3⟩)
        · exact ⟨0, by simpa using h1, by simpa using h2, by simpa using h3⟩
        · exact ⟨m + 1, by simpa using h1, by simpa using h2, by simpa using h3⟩
    cases hm : matchSvgFrag (c :: rest) with
    | some sp =>
      simp only [searchSvgFrag, hm]
      constructor
      · intro h
        exact Option.noConfusion h
      · intro h
        exfalso
        apply h
        rw [hpair]
        left
        by_contra hh
        rw [← matchSvgFrag_none_iff] at hh
        rw [hm] at hh
        exact Option.noConfusion hh
    | none =>
      have hnp : ¬ HeadPair (c :: rest) := matchSvgFrag_none_iff.mp hm
      simp only [searchSvgFrag, hm]
      rw [ih, hpair]
      constructor
      · intro h hor
        rcases hor with h1 | h2
        · exact hnp h1
        · exact h h2
      · intro h h2
        exact h (Or.inr h2)

/-- C5: extraction is total and split by failure kind: with a failing
underlying read it returns the IO failure naming the file and wrapping the
cause, and with a successful read it returns the `No SVG tag found` failure
exactly when no position of the text opens a `<svg` tag of the expected shape
(tag name followed by whitespace or `>`) with a `</svg>` closing tag after
it. -/
theorem claim5_thm :
    (∀ path cause, extractSvgFromTsx path (Except.error cause) =
        ExtractResult.ioFailure path cause) ∧
    (∀ path txt, extractSvgFromTsx path (Except.ok txt) =
        ExtractResult.notFound path ↔ ¬ SvgPairAt txt) := by
  refine ⟨fun path cause => rfl, fun path txt => ?_⟩
  cases hm : searchSvgFrag txt with
  | none =>
    refine iff_of_true ?_ (searchSvgFrag_none_iff.mp hm)
    simp [extractSvgFromTsx, hm]
  | some span =>
    refine iff_of_false ?_ ?_
    · simp [extractSvgFromTsx, hm]
    · intro hn
      rw [← searchSvgFrag_none_iff, hm] at hn
      exact Option.noConfusion hn

/-- C6: when every case-insensitive `<svg` occurrence of the text is followed
by a character that is neither whitespace nor `>` (for example the type
reference `SVGProps<SVGSVGElement>`), no occurrence is treated as an opening
tag, and extraction returns the `No SVG tag found` failure. -/
theorem claim6_thm (path txt : List Char)
    (h : ∀ n, n < txt.length → ciPref ltSvg (txt.drop n) = true →
        headSat (fun c => !isWsChar c && !(c = '>')) ((txt.drop n).drop 4) = true) :
    extractSvgFromTsx path (Except.ok txt) = ExtractResult.notFound path := by
  have hns : ¬ SvgPairAt txt := by
    rintro ⟨n, h1, h2, -⟩
    have hn : n < txt.length := by
      by_contra hge
      push_neg at hge
      rw [List.drop_eq_nil_of_le hge] at h1
      exact absurd h1 (by decide)
    have h3 := h n hn h1
    cases he : (txt.drop n).drop 4 with
    | nil => rw [he] at h2; exact absurd h2 (by simp [headSat])
    | cons c t =>
      rw [he] at h2 h3
      simp only [headSat, Bool.or_eq_true, Bool.and_eq_true,
        Bool.not_eq_true', decide_eq_true_eq, decide_eq_false_iff_not] at h2 h3
      rcases h2 with hw | hg
      · rw [h3.1] at hw; exact Bool.noConfusion hw
      · exact h3.2 hg
  have hm : searchSvgFrag txt = none := searchSvgFrag_none_iff.mpr hns
  simp [extractSvgFromTsx, hm]

/-- C6 (witness): the hypothesis holds of a concrete text containing
`SVGProps<SVGSVGElement>`, and extraction indeed returns the not-found
failure. -/
theorem claim6_witness :
    extractSvgFromTsx tsxPath (Except.ok c6In) = ExtractResult.notFound tsxPath :=
  claim6_thm tsxPath c6In (by decide)

theorem headSat_dropWhile_self {p : Char → Bool} (l : List Char) :
    headSat p (l.dropWhile p) = false := by
  induction l with
  | nil => rfl
  | cons c t ih =>
    by_cases hc : p c = true
    · simpa [List.dropWhile_cons, hc] using ih
    · rw [Bool.not_eq_true] at hc
      simp [List.dropWhile_cons, hc, headSat]

theorem noAdjWs_cons_nonws {c : Char} {l : List Char} (hc : isWsChar c = false)
    (h : noAdjWs l = true) : noAdjWs (c :: l) = true := by
  cases l with
  | nil => rfl
  | cons d t =>
    rw [noAdjWs, Bool.and_eq_true]
    exact ⟨by rw [hc]; rfl, h⟩

theorem noAdjWs_cons_headNonWs {c : Char} {l : List Char}
    (hl : headSat isWsChar l = false) (h : noAdjWs l = true) :
    noAdjWs (c :: l) = true := by
  cases l with
  | nil => rfl
  | cons d t =>
    rw [noAdjWs, Bool.and_eq_true]
    refine ⟨?_, h⟩
    simp only [headSat] at hl
    rw [hl, Bool.and_false]
    rfl

theorem noWsGt_cons_nonws {c : Char} {l : List Char} (hc : isWsChar c = false)
    (h : noWsGt l = true) : noWsGt (c :: l) = true := by
  cases l with
  | nil => rfl
  | cons d t =>
    rw [noWsGt, Bool.and_eq_true]
    exact ⟨by rw [hc]; rfl, h⟩

theorem noAdjWs_tail {a : Char} {l : List Char} (h : noAdjWs (a :: l) = true) :
    noAdjWs l = true := by
  cases l with
  | nil => rfl
  | cons b t => rw [noAdjWs, Bool.and_eq_true] at h; exact h.2

theorem noWsGt_tail {a : Char} {l : List Char} (h : noWsGt (a :: l) = true) :
    noWsGt l = true := by
  cases l with
  | nil => rfl
  | cons b t => rw [noWsGt, Bool.and_eq_true] at h; exact h.2

theorem allWsSpace_tail {a : Char} {l : List Char}
    (h : allWsSpace (a :: l) = true) : allWsSpace l = true := by
  rw [allWsSpace, List.all_cons, Bool.and_eq_true] at h
  exact h.2

theorem allWsSpace_head {a : Char} {l : List Char}
    (h : allWsSpace (a :: l) = true) (hw : isWsChar a = true) : a = ' ' := by
  rw [allWsSpace, List.all_cons, Bool.and_eq_true] at h
  have h1 := h.1
  rw [hw] at h1
  simpa using h1

theorem replaceAllF_nil_of_none {try? : List Char → Option (List Char × List Char)}
    (h : try? [] = none) : ∀ f, replaceAllF try? f [] = [] := by
  intro f
  cases f with
  | zero => rfl
  | succ f2 => simp [replaceAllF, h]

theorem replaceAllF_head_of_none {try? : List Char → Option (List Char × List Char)}
    {c : Char} {rest : List Char} {f : Nat} (h : try? (c :: rest) = none)
    (hf : 1 ≤ f) : ∃ t0, replaceAllF try? f (c :: rest) = c :: t0 := by
  cases f with
  | zero => simp at hf
  | succ f2 => exact ⟨replaceAllF try? f2 rest, by simp [replaceAllF, h]⟩

theorem wsRun_norm : ∀ fuel s, s.length ≤ fuel →
    allWsSpace (replaceAllF matchWsRun fuel s) = true ∧
    noAdjWs (replaceAllF matchWsRun fuel s) = true ∧
    (headSat isWsChar (replaceAllF matchWsRun fuel s) = true →
      headSat isWsChar s = true) := by
  intro fuel
  induction fuel with
  | zero =>
    intro s hs
    have hz : s = [] := List.length_eq_zero.mp (Nat.le_zero.mp hs)
    subst hz
    exact ⟨rfl, rfl, fun h => h⟩
  | succ f ih =>
    intro s hs
    cases s with
    | nil => exact ⟨rfl, rfl, fun h => h⟩
    | cons c rest =>
      by_cases hc : isWsChar c = true
      · have hm : matchWsRun (c :: rest) = some ([' '], rest.dropWhile isWsChar) := by
          simp [matchWsRun, hc]
        have hlen : (rest.dropWhile isWsChar).length ≤ f := by
          have hd : (rest.dropWhile isWsChar).length ≤ rest.length :=
            (List.dropWhile_suffix isWsChar).length_le
          simp only [List.length_cons] at hs
          omega
        obtain ⟨ih1, ih2, ih3⟩ := ih (rest.dropWhile isWsChar) hlen
        have hout : replaceAllF matchWsRun (f + 1) (c :: rest) =
            ' ' :: replaceAllF matchWsRun f (rest.dropWhile isWsChar) := by
          simp [replaceAllF, hm]
        rw [hout]
        have hds := headSat_dropWhile_self (p := isWsChar) rest
        have hhead : headSat isWsChar
            (replaceAllF matchWsRun f (rest.dropWhile isWsChar)) = false := by
          cases hh : headSat isWsChar (replaceAllF matchWsRun f (rest.dropWhile isWsChar))
          · rfl
          · rw [ih3 hh] at hds; exact Bool.noConfusion hds
        refine ⟨?_, noAdjWs_cons_headNonWs hhead ih2, fun _ => ?_⟩
        · rw [allWsSpace, List.all_cons, Bool.and_eq_true]
          exact ⟨by decide, ih1⟩
        · simp [headSat, hc]
      · rw [Bool.not_eq_true] at hc
        have hm : matchWsRun (c :: rest) = none := by
          simp [matchWsRun, hc]
        have hout : replaceAllF matchWsRun (f + 1) (c :: rest) =
            c :: replaceAllF matchWsRun f rest := by
          simp [replaceAllF, hm]
        have hlen : rest.length ≤ f := by
          simp only [List.length_cons] at hs
          omega
        obtain ⟨ih1, ih2, ih3⟩ := ih rest hlen
        rw [hout]
        refine ⟨?_, noAdjWs_cons_nonws hc ih2, fun hh => ?_⟩
        · rw [allWsSpace, List.all_cons, Bool.and_eq_true]
          exact ⟨by rw [hc]; rfl, ih1⟩
        · exact absurd hh (by simp [headSat, hc])

theorem wsGt_norm : ∀ fuel s, s.length ≤ fuel →
    allWsSpace s = true → noAdjWs s = true →
    allWsSpace (replaceAllF matchWsGt fuel s) = true ∧
    noAdjWs (replaceAllF matchWsGt fuel s) = true ∧
    noWsGt (replaceAllF matchWsGt fuel s) = true ∧
    (headSat isWsChar (replaceAllF matchWsGt fuel s) = true →
      headSat isWsChar s = true) := by
  intro fuel
  induction fuel with
  | zero =>
    intro s hs hA hN
    have hz : s = [] := List.length_eq_zero.mp (Nat.le_zero.mp hs)
    subst hz
    exact ⟨rfl, rfl, rfl, fun h => h⟩
  | succ f ih =>
    intro s hs hA hN
    cases s with
    | nil => exact ⟨rfl, rfl, rfl, fun h => h⟩
    | cons c rest =>
      by_cases hc : isWsChar c = true
      · cases rest with
        | nil =>
          have hm : matchWsGt (c :: []) = none := by
            simp [matchWsGt, hasHead, headSat]
          have hout : replaceAllF matchWsGt (f + 1) (c :: []) = [c] := by
            simp [replaceAllF, hm,
              replaceAllF_nil_of_none (show matchWsGt [] = none from rfl)]
          rw [hout]
          exact ⟨hA, rfl, rfl, fun h => h⟩
        | cons d r =>
          have hd : isWsChar d = false := by
            have h1 := hN
            rw [noAdjWs, Bool.and_eq_true] at h1
            have h2 := h1.1
            rw [hc] at h2
            simpa using h2
          by_cases hd2 : d = '>'
          · subst hd2
            have hm : matchWsGt (c :: '>' :: r) = some (['>'], r) := by
              simp [matchWsGt, hc, List.dropWhile_cons, hd, hasHead, headSat]
            have hout : replaceAllF matchWsGt (f + 1) (c :: '>' :: r) =
                '>' :: replaceAllF matchWsGt f r := by
              simp [replaceAllF, hm]
            have hlen : r.length ≤ f := by
              simp only [List.length_cons] at hs
              omega
            obtain ⟨i1, i2, i3, i4⟩ := ih r hlen
              (allWsSpace_tail (allWsSpace_tail hA))
              (noAdjWs_tail (noAdjWs_tail hN))
            rw [hout]
            refine ⟨?_, noAdjWs_cons_nonws (by decide) i2,
              noWsGt_cons_nonws (by decide) i3, fun hh => ?_⟩
            · rw [allWsSpace, List.all_cons, Bool.and_eq_true]
              exact ⟨by decide, i1⟩
            · exact absurd hh (by simp only [headSat]; decide)
          · have hm : matchWsGt (c :: d :: r) = none := by
              simp [matchWsGt, List.dropWhile_cons, hd, hasHead, headSat, hd2]
            have hout : replaceAllF matchWsGt (f + 1) (c :: d :: r) =
                c :: replaceAllF matchWsGt f (d :: r) := by
              simp [replaceAllF, hm]
            have hm2 : matchWsGt (d :: r) = none := by
              simp [matchWsGt, hd]
            have hlen2 : (d :: r).length ≤ f := by
              simp only [List.length_cons] at hs ⊢
              omega
            obtain ⟨i1, i2, i3, i4⟩ := ih (d :: r) hlen2
              (allWsSpace_tail hA) (noAdjWs_tail hN)
            have hf1 : 1 ≤ f := by
              simp only [List.length_cons] at hlen2
              omega
            obtain ⟨t0, ht0⟩ := replaceAllF_head_of_none hm2 hf1
            rw [ht0] at i1 i2 i3
            rw [hout, ht0]
            have hcsp : c = ' ' := allWsSpace_head hA hc
            refine ⟨?_, ?_, ?_, fun _ => by simp [headSat, hc]⟩
            · rw [allWsSpace, List.all_cons, Bool.and_eq_true]
              refine ⟨by rw [hcsp]; decide, i1⟩
            · rw [noAdjWs, Bool.and_eq_true]
              exact ⟨by rw [hd, Bool.and_false]; rfl, i2⟩
            · rw [noWsGt, Bool.and_eq_true]
              exact ⟨by simp [hd2], i3⟩
      · rw [Bool.not_eq_true] at hc
        have hm : matchWsGt (c :: rest) = none := by
          simp [matchWsGt, hc]
        have hout : replaceAllF matchWsGt (f + 1) (c :: rest) =
            c :: replaceAllF matchWsGt f rest := by
          simp [replaceAllF, hm]
        have hlen : rest.length ≤ f := by
          simp only [List.length_cons] at hs
          omega
        obtain ⟨i1, i2, i3, i4⟩ := ih rest hlen
          (allWsSpace_tail hA) (noAdjWs_tail hN)
        rw [hout]
        refine ⟨?_, noAdjWs_cons_nonws hc i2, noWsGt_cons_nonws hc i3,
          fun hh => absurd hh (by simp [headSat, hc])⟩
        rw [allWsSpace, List.all_cons, Bool.and_eq_true]
        exact ⟨by rw [hc]; rfl, i1⟩

/-- C4 (amended): of the four guarantees claimed for the output of
`transformSvg`, only the whitespace one holds unconditionally: every
successful result has all of its whitespace characters as plain spaces, no
two adjacent whitespace characters, and no whitespace character directly
before a `>`.  The other three parts fail (see the counterexample): a
placeholder can be spliced back in, a nested `xmlns` makes the count exceed
one, and an option value can put `={N}` into the output. -/
theorem claim4_thm (s t : List Char) (o : TransformOptions)
    (h : transformSvg s o = Result.success t) :
    allWsSpace t = true ∧ noAdjWs t = true ∧ noWsGt t = true := by
  simp only [transformSvg, Result.success.injEq] at h
  subst h
  have h1 := wsRun_norm
    (replaceAll matchCamelAttr
      (let t3 := replaceAll matchNum
        (replaceAll (matchCC (resolveColor o)) (replaceAll matchProps s))
       let targets := resolveTargets o t3
       let t4 := if truthy targets.1 || truthy targets.2 then
           (replaceFirstO (svgTagTry targets.1 targets.2) t3).getD t3
         else t3
       if hasSub xmlnsEq t4 then t4
       else (replaceFirstO matchLtSvgCIIns t4).getD t4)).length _ le_rfl
  have h2 := wsGt_norm (replaceAll matchWsRun _).length _ le_rfl h1.1 h1.2.1
  exact ⟨h2.1, h2.2.1, h2.2.2.1⟩

/-- C4 (witness): the whitespace guarantees hold of the concrete output of
the counterexample input, on which the other claimed guarantees fail. -/
theorem claim4_witness :
    transformSvg c4In c4Opts = Result.success c4Out ∧
    (allWsSpace c4Out = true ∧ noAdjWs c4Out = true ∧ noWsGt c4Out = true) :=
  ⟨by decide, claim4_thm c4In c4Out c4Opts (by decide)⟩

theorem char_le_iff {a b : Char} : a ≤ b ↔ a.toNat ≤ b.toNat := by
  rw [Char.le_def, UInt32.le_def, BitVec.le_def]
  rfl

theorem toNat_ofNat_valid {n : Nat} (h : n < 0xd800) : (Char.ofNat n).toNat = n := by
  have hv : n.isValidChar := Or.inl h
  rw [Char.ofNat, dif_pos hv]
  simp [Char.ofNatAux, Char.toNat, UInt32.toNat]

theorem lowerChar_toNat_upper {c : Char} (h : 65 ≤ c.toNat ∧ c.toNat ≤ 90) :
    (lowerChar c).toNat = c.toNat + 32 := by
  have h1 : 'A' ≤ c := char_le_iff.mpr (by simpa using h.1)
  have h2 : c ≤ 'Z' := char_le_iff.mpr (by simpa using h.2)
  rw [lowerChar, if_pos (by simp [h1, h2])]
  exact toNat_ofNat_valid (by omega)

theorem lowerChar_eq_self {c : Char} (h : ¬ (65 ≤ c.toNat ∧ c.toNat ≤ 90)) :
    lowerChar c = c := by
  rw [lowerChar, if_neg]
  intro hcond
  rw [Bool.and_eq_true, decide_eq_true_eq, decide_eq_true_eq] at hcond
  exact h ⟨by simpa using char_le_iff.mp hcond.1, by simpa using char_le_iff.mp hcond.2⟩

theorem lowerChar_idem (c : Char) : lowerChar (lowerChar c) = lowerChar c := by
  by_cases h : 65 ≤ c.toNat ∧ c.toNat ≤ 90
  · have ht := lowerChar_toNat_upper h
    apply lowerChar_eq_self
    rw [ht]
    omega
  · rw [lowerChar_eq_self h, lowerChar_eq_self h]

theorem inTokCC_eq_false {c : Char}
    (h : ∀ k ∈ [99, 117, 114, 101, 110, 116, 111, 108], (lowerChar c).toNat ≠ k) :
    inTokCC c = false := by
  cases hq : inTokCC c
  · rfl
  · exfalso
    rw [inTokCC] at hq
    have hm : lowerChar c ∈ ccLow := by
      have := List.elem_iff.mp hq
      exact this
    rw [ccLow] at hm
    simp only [List.mem_cons, List.not_mem_nil, or_false] at hm
    rcases hm with h1 | h1 | h1 | h1 | h1 | h1 | h1 | h1 | h1 | h1 | h1 | h1 <;>
      (first
        | exact h 99 (by simp) (by rw [h1]; rfl)
        | exact h 117 (by simp) (by rw [h1]; rfl)
        | exact h 114 (by simp) (by rw [h1]; rfl)
        | exact h 101 (by simp) (by rw [h1]; rfl)
        | exact h 110 (by simp) (by rw [h1]; rfl)
        | exact h 116 (by simp) (by rw [h1]; rfl)
        | exact h 111 (by simp) (by rw [h1]; rfl)
        | exact h 108 (by simp) (by rw [h1]; rfl))

theorem inTokCC_of_ciEq {a b : Char} (h : ciEq a b = true) : inTokCC a = inTokCC b := by
  rw [ciEq, decide_eq_true_eq] at h
  rw [inTokCC, inTokCC, h]

theorem inTokCC_ws {c : Char} (h : isWsChar c = true) : inTokCC c = false := by
  have hv : c.toNat < 65 ∨ 122 < c.toNat := by
    rw [isWsChar] at h
    simp only [Bool.or_eq_true, decide_eq_true_eq, Bool.and_eq_true] at h
    omega
  have hl : lowerChar c = c := lowerChar_eq_self (by omega)
  apply inTokCC_eq_false
  intro k hk
  rw [hl]
  simp only [List.mem_cons, List.not_mem_nil, or_false] at hk
  omega

theorem inTokCC_digit {c : Char} (h : isDigitCh c = true) : inTokCC c = false := by
  rw [isDigitCh, Bool.and_eq_true, decide_eq_true_eq, decide_eq_true_eq] at h
  have h1 : 48 ≤ c.toNat := by simpa using char_le_iff.mp h.1
  have h2 : c.toNat ≤ 57 := by simpa using char_le_iff.mp h.2
  have hl : lowerChar c = c := lowerChar_eq_self (by omega)
  apply inTokCC_eq_false
  intro k hk
  rw [hl]
  simp only [List.mem_cons, List.not_mem_nil, or_false] at hk
  omega

theorem noC_of_nonTok {c : Char} (h : inTokCC c = false) : ciEq 'c' c = false := by
  cases hq : ciEq 'c' c
  · rfl
  · have := inTokCC_of_ciEq hq
    rw [h] at this
    exact absurd this (by decide)

theorem ciEq_lowerChar_right (a c : Char) : ciEq a (lowerChar c) = ciEq a c := by
  rw [ciEq, ciEq, lowerChar_idem]

theorem ciPref_map_lower (p : List Char) : ∀ s, ciPref p (s.map lowerChar) = ciPref p s := by
  induction p with
  | nil => intro s; rfl
  | cons a ps ih =>
    intro s
    cases s with
    | nil => rfl
    | cons c t => simp only [List.map_cons, ciPref, ciEq_lowerChar_right, ih]

theorem ccFree_nil : CCFree ([] : List Char) := by
  intro n hn
  rw [List.drop_nil]
  exact ciPref_nil (by decide)

theorem ccTok_pref_false_of_head {c : Char} {t : List Char}
    (hct : ciEq 'c' c = false) : ciPref ccTok (c :: t) = false := by
  simp only [ccTok, ciPref, hct, Bool.false_and]

theorem ccFree_cons {c : Char} {l : List Char}
    (h0 : ciPref ccTok (c :: l) = false) (h : CCFree l) : CCFree (c :: l) := by
  intro n hn
  cases n with
  | zero => simpa using h0
  | succ m =>
    rw [List.drop_succ_cons]
    exact h m (by simp at hn; omega)

theorem ccFree_tail {c : Char} {l : List Char} (h : CCFree (c :: l)) : CCFree l := by
  intro n hn
  have h2 := h (n + 1) (by simp; omega)
  rwa [List.drop_succ_cons] at h2

theorem ccFree_suffix {u s : List Char} (h : CCFree s) (hs : u <:+ s) : CCFree u := by
  obtain ⟨t, rfl⟩ := hs
  intro n hn
  have h2 := h (t.length + n) (by simp [List.length_append]; omega)
  rwa [drop_add_append] at h2

theorem ciPref_mono {p u v : List Char} (h : ciPref p u = true) :
    ciPref p (u ++ v) = true := by
  induction p generalizing u with
  | nil => rfl
  | cons a ps ih =>
    cases u with
    | nil => exact absurd h (by simp [ciPref])
    | cons c t =>
      rw [List.cons_append]
      simp only [ciPref, Bool.and_eq_true] at h ⊢
      exact ⟨h.1, ih h.2⟩

theorem ccFree_append_split {A B : List Char}
    (hA : ∀ n, n < A.length → ciPref ccTok ((A ++ B).drop n) = false)
    (hB : CCFree B) : CCFree (A ++ B) := by
  intro n hn
  by_cases h : n < A.length
  · exact hA n h
  · push_neg at h
    obtain ⟨m, rfl⟩ := Nat.exists_eq_add_of_le h
    rw [drop_add_append]
    exact hB m (by simp [List.length_append] at hn; omega)

theorem ccFree_of_append3 {a u b : List Char} (hs : CCFree (a ++ u ++ b)) :
    CCFree u := by
  rw [List.append_assoc] at hs
  intro n hn
  cases hq : ciPref ccTok (u.drop n)
  · rfl
  · exfalso
    have h1 : ciPref ccTok (u.drop n ++ b) = true := ciPref_mono hq
    have h2 : (u ++ b).drop n = u.drop n ++ b := by
      rw [List.drop_append_eq_append_drop, Nat.sub_eq_zero_of_le hn, List.drop_zero]
    have h3 := hs (a.length + n) (by simp [List.length_append]; omega)
    rw [drop_add_append, h2, h1] at h3
    exact Bool.noConfusion h3

theorem ciPref_append_left_of_le {p u v : List Char} (hl : p.length ≤ u.length)
    (h : ciPref p (u ++ v) = true) : ciPref p u = true := by
  induction p generalizing u with
  | nil => rfl
  | cons a ps ih =>
    cases u with
    | nil => simp at hl
    | cons c t =>
      rw [List.cons_append] at h
      simp only [ciPref, Bool.and_eq_true] at h ⊢
      exact ⟨h.1, ih (by simpa using hl) h.2⟩

theorem ciPref_take_tok : ∀ (p s : List Char), (∀ c ∈ p, inTokCC c = true) →
    ciPref p s = true → ∀ c ∈ s.take p.length, inTokCC c = true := by
  intro p
  induction p with
  | nil => intro s _ _ c hc; simp at hc
  | cons a ps ih =>
    intro s hp hps c hc
    cases s with
    | nil => simp [ciPref] at hps
    | cons d t =>
      simp only [ciPref, Bool.and_eq_true] at hps
      simp only [List.length_cons, List.take_succ_cons, List.mem_cons] at hc
      rcases hc with rfl | hc
      · rw [← inTokCC_of_ciEq hps.1]
        exact hp a (by simp)
      · exact ih t (fun x hx => hp x (by simp [hx])) hps.2 c hc

theorem ccFree_append_of_noC {A B : List Char}
    (hA : ∀ c ∈ A, ciEq 'c' c = false) (hB : CCFree B) : CCFree (A ++ B) := by
  induction A with
  | nil => simpa using hB
  | cons a A2 ih =>
    rw [List.cons_append]
    refine ccFree_cons ?_ (ih (fun c hc => hA c (by simp [hc])))
    exact ccTok_pref_false_of_head (hA a (by simp))

theorem ccFree_append_headBlock {A B : List Char} (hA : CCFree A) (hB : CCFree B)
    (hBh : headSat (fun x => !inTokCC x) B = true ∨ B = []) : CCFree (A ++ B) := by
  rcases hBh with hBh | rfl
  · refine ccFree_append_split (fun n hn => ?_) hB
    cases hq : ciPref ccTok ((A ++ B).drop n)
    · rfl
    · exfalso
      have hdp : (A ++ B).drop n = A.drop n ++ B := by
        rw [List.drop_append_eq_append_drop, Nat.sub_eq_zero_of_le (le_of_lt hn),
          List.drop_zero]
      rw [hdp] at hq
      by_cases hlen : ccTok.length ≤ (A.drop n).length
      · have h2 := ciPref_append_left_of_le hlen hq
        have h3 := hA n (le_of_lt hn)
        rw [h2] at h3
        exact Bool.noConfusion h3
      · push_neg at hlen
        obtain ⟨b0, B2, hBe, hb0⟩ := headSat_iff.mp hBh
        subst hBe
        have hmem : b0 ∈ (A.drop n ++ b0 :: B2).take ccTok.length := by
          rw [List.take_append_eq_append_take]
          refine List.mem_append_right _ ?_
          obtain ⟨k, hk⟩ : ∃ k, ccTok.length - (A.drop n).length = k + 1 :=
            ⟨ccTok.length - (A.drop n).length - 1, by omega⟩
          rw [hk, List.take_succ_cons]
          exact List.mem_cons_self b0 _
        have htk := ciPref_take_tok ccTok _ (by decide) hq b0 hmem
        rw [htk] at hb0
        simp at hb0
  · simpa using hA

theorem ccFree_map_lower {l : List Char} (h : CCFree l) : CCFree (l.map lowerChar) := by
  intro n hn
  have e : ∀ m : Nat, ∀ u : List Char, (u.map lowerChar).drop m = (u.drop m).map lowerChar := by
    intro m
    induction m with
    | zero => intro u; simp
    | succ k ih =>
      intro u
      cases u with
      | nil => simp
      | cons c t => simp only [List.map_cons, List.drop_succ_cons, ih]
  rw [e n l, ciPref_map_lower]
  exact h n (by simpa using hn)

theorem drop_takeWhile_length (p : Char → Bool) : ∀ l : List Char,
    l.drop (l.takeWhile p).length = l.dropWhile p := by
  intro l
  induction l with
  | nil => rfl
  | cons c t ih =>
    by_cases hc : p c = true
    · simp only [List.takeWhile_cons, List.dropWhile_cons, hc, if_true,
        List.length_cons, List.drop_succ_cons]
      exact ih
    · rw [Bool.not_eq_true] at hc
      simp [List.takeWhile_cons, List.dropWhile_cons, hc]

theorem takeWhile_drop_decomp (p : Char → Bool) (l : List Char) :
    l = l.takeWhile p ++ l.drop (l.takeWhile p).length := by
  rw [drop_takeWhile_length, List.takeWhile_append_dropWhile]

theorem litPref_decomp : ∀ {p s : List Char}, litPref p s = true →
    s = p ++ s.drop p.length := by
  intro p
  induction p with
  | nil => intro s _; simp
  | cons a ps ih =>
    intro s h
    cases s with
    | nil => simp [litPref] at h
    | cons c t =>
      simp only [litPref, Bool.and_eq_true, decide_eq_true_eq] at h
      rw [List.length_cons, List.drop_succ_cons, List.cons_append, ← h.1]
      exact congrArg (a :: ·) (ih h.2)

theorem matchCC_eq_some {col s rep rest2 : List Char}
    (h : matchCC col s = some (rep, rest2)) :
    ciPref ccTok s = true ∧ rep = col ∧ rest2 = s.drop 12 := by
  rw [matchCC] at h
  split_ifs at h with h1
  simp only [Option.some.injEq, Prod.mk.injEq] at h
  exact ⟨h1, h.1.symm, h.2.symm⟩

theorem matchCC_eq_none {col s : List Char} (h : matchCC col s = none) :
    ciPref ccTok s = false := by
  cases hq : ciPref ccTok s
  · rfl
  · rw [matchCC, if_pos hq] at h
    exact Option.noConfusion h

theorem matchCC_establish {col : List Char} (hne : col ≠ [])
    (hcol : ∀ c ∈ col, inTokCC c = false) :
    ∀ fuel s, s.length ≤ fuel →
      CCFree (replaceAllF (matchCC col) fuel s) ∧
      (∀ p, (∀ c ∈ p, inTokCC c = true) →
        ciPref p (replaceAllF (matchCC col) fuel s) = true → ciPref p s = true) := by
  intro fuel
  induction fuel with
  | zero =>
    intro s hs
    have hz : s = [] := List.length_eq_zero.mp (Nat.le_zero.mp hs)
    subst hz
    exact ⟨ccFree_nil, fun p _ h => h⟩
  | succ f ih =>
    intro s hs
    cases hm : matchCC col s with
    | some pr =>
      obtain ⟨rep, rest2⟩ := pr
      obtain ⟨hci, hrc, hr2⟩ := matchCC_eq_some hm
      obtain ⟨hlt, hsuf⟩ := properTail_matchCC col s rep rest2 hm
      have hlen : rest2.length ≤ f := by omega
      obtain ⟨i1, i2⟩ := ih rest2 hlen
      have hout : replaceAllF (matchCC col) (f + 1) s =
          col ++ replaceAllF (matchCC col) f rest2 := by
        simp [replaceAllF, hm, hrc]
      rw [hout]
      constructor
      · exact ccFree_append_of_noC (fun c hc => noC_of_nonTok (hcol c hc)) i1
      · intro p hp hpp
        cases p with
        | nil => rfl
        | cons a ps =>
          exfalso
          obtain ⟨c0, cr, hce⟩ := List.exists_cons_of_ne_nil hne
          rw [hce, List.cons_append] at hpp
          simp only [ciPref, Bool.and_eq_true] at hpp
          have hteq := inTokCC_of_ciEq hpp.1
          rw [hp a (by simp)] at hteq
          have hc0 := hcol c0 (by rw [hce]; simp)
          rw [hc0] at hteq
          exact Bool.noConfusion hteq
    | none =>
      cases s with
      | nil =>
        have hout : replaceAllF (matchCC col) (f + 1) [] = [] := by
          simp [replaceAllF, hm]
        rw [hout]
        exact ⟨ccFree_nil, fun p _ h => h⟩
      | cons c rest =>
        have hlen : rest.length ≤ f := by simp at hs; omega
        obtain ⟨i1, i2⟩ := ih rest hlen
        have hout : replaceAllF (matchCC col) (f + 1) (c :: rest) =
            c :: replaceAllF (matchCC col) f rest := by
          simp [replaceAllF, hm]
        rw [hout]
        have hciF := matchCC_eq_none hm
        constructor
        · refine ccFree_cons ?_ i1
          cases hq : ciPref ccTok (c :: replaceAllF (matchCC col) f rest)
          · rfl
          · exfalso
            simp only [ccTok, ciPref, Bool.and_eq_true] at hq
            have hpull := i2 ['u', 'r', 'r', 'e', 'n', 't', 'C', 'o', 'l', 'o', 'r']
              (by decide) hq.2
            have hcontra : ciPref ccTok (c :: rest) = true := by
              simp only [ccTok, ciPref, Bool.and_eq_true]
              exact ⟨hq.1, hpull⟩
            rw [hcontra] at hciF
            exact Bool.noConfusion hciF
        · intro p hp hpp
          cases p with
          | nil => rfl
          | cons a ps =>
            simp only [ciPref, Bool.and_eq_true] at hpp ⊢
            exact ⟨hpp.1, i2 ps (fun x hx => hp x (by simp [hx])) hpp.2⟩

theorem replaceAllF_ccPreserve {try? : List Char → Option (List Char × List Char)}
    (hPT : ProperTail try?)
    (hrep : ∀ u rep rest2, CCFree u → try? u = some (rep, rest2) →
      (∀ X, CCFree X → CCFree (rep ++ X)) ∧
      headSat (fun x => !inTokCC x) rep = true) :
    ∀ fuel s, s.length ≤ fuel → CCFree s →
      CCFree (replaceAllF try? fuel s) ∧
      (∀ p, (∀ c ∈ p, inTokCC c = true) →
        ciPref p (replaceAllF try? fuel s) = true → ciPref p s = true) := by
  intro fuel
  induction fuel with
  | zero =>
    intro s hs hS
    exact ⟨hS, fun p _ h => h⟩
  | succ f ih =>
    intro s hs hS
    cases hm : try? s with
    | some pr =>
      obtain ⟨rep, rest2⟩ := pr
      obtain ⟨hlt, hsuf⟩ := hPT s rep rest2 hm
      have hlen : rest2.length ≤ f := by omega
      obtain ⟨i1, i2⟩ := ih rest2 hlen (ccFree_suffix hS hsuf)
      obtain ⟨hRX, hRh⟩ := hrep s rep rest2 hS hm
      have hout : replaceAllF try? (f + 1) s = rep ++ replaceAllF try? f rest2 := by
        simp [replaceAllF, hm]
      rw [hout]
      constructor
      · exact hRX _ i1
      · intro p hp hpp
        cases p with
        | nil => rfl
        | cons a ps =>
          exfalso
          obtain ⟨r0, rr, hre, hr0⟩ := headSat_iff.mp hRh
          rw [hre, List.cons_append] at hpp
          simp only [ciPref, Bool.and_eq_true] at hpp
          have hteq := inTokCC_of_ciEq hpp.1
          rw [hp a (by simp)] at hteq
          rw [← hteq] at hr0
          simp at hr0
    | none =>
      cases s with
      | nil =>
        have hout : replaceAllF try? (f + 1) [] = [] := by simp [replaceAllF, hm]
        rw [hout]
        exact ⟨ccFree_nil, fun p _ h => h⟩
      | cons c rest =>
        have hlen : rest.length ≤ f := by simp at hs; omega
        obtain ⟨i1, i2⟩ := ih rest hlen (ccFree_tail hS)
        have hout : replaceAllF try? (f + 1) (c :: rest) =
            c :: replaceAllF try? f rest := by
          simp [replaceAllF, hm]
        rw [hout]
        constructor
        · refine ccFree_cons ?_ i1
          cases hq : ciPref ccTok (c :: replaceAllF try? f rest)
          · rfl
          · exfalso
            simp only [ccTok, ciPref, Bool.and_eq_true] at hq
            have hpull := i2 ['u', 'r', 'r', 'e', 'n', 't', 'C', 'o', 'l', 'o', 'r']
              (by decide) hq.2
            have hcontra : ciPref ccTok (c :: rest) = true := by
              simp only [ccTok, ciPref, Bool.and_eq_true]
              exact ⟨hq.1, hpull⟩
            have h0 := hS 0 (by simp)
            rw [List.drop_zero, hcontra] at h0
            exact Bool.noConfusion h0
        · intro p hp hpp
          cases p with
          | nil => rfl
          | cons a ps =>
            simp only [ciPref, Bool.and_eq_true] at hpp ⊢
            exact ⟨hpp.1, i2 ps (fun x hx => hp x (by simp [hx])) hpp.2⟩

theorem replaceFirstO_ccPreserve {try? : List Char → Option (List Char × List Char)}
    (hrep : ∀ u rep rest2, CCFree u → try? u = some (rep, rest2) →
      CCFree (rep ++ rest2) ∧ headSat (fun x => !inTokCC x) rep = true) :
    ∀ s t, CCFree s → replaceFirstO try? s = some t →
      CCFree t ∧
      (∀ p, (∀ c ∈ p, inTokCC c = true) →
        ciPref p t = true → ciPref p s = true) := by
  intro s
  induction s with
  | nil =>
    intro t hS hr
    rw [replaceFirstO] at hr
    cases hm : try? [] with
    | some pr =>
      obtain ⟨rep, rest2⟩ := pr
      rw [hm] at hr
      simp only [Option.some.injEq] at hr
      subst hr
      obtain ⟨h1, h2⟩ := hrep [] rep rest2 hS hm
      refine ⟨h1, fun p hp hpp => ?_⟩
      cases p with
      | nil => rfl
      | cons a ps =>
        exfalso
        obtain ⟨r0, rr, hre, hr0⟩ := headSat_iff.mp h2
        rw [hre, List.cons_append] at hpp
        simp only [ciPref, Bool.and_eq_true] at hpp
        have hteq := inTokCC_of_ciEq hpp.1
        rw [hp a (by simp)] at hteq
        rw [← hteq] at hr0
        simp at hr0
    | none =>
      rw [hm] at hr
      exact Option.noConfusion hr
  | cons c rest ih =>
    intro t hS hr
    rw [replaceFirstO] at hr
    cases hm : try? (c :: rest) with
    | some pr =>
      obtain ⟨rep, rest2⟩ := pr
      rw [hm] at hr
      simp only [Option.some.injEq] at hr
      subst hr
      obtain ⟨h1, h2⟩ := hrep (c :: rest) rep rest2 hS hm
      refine ⟨h1, fun p hp hpp => ?_⟩
      cases p with
      | nil => rfl
      | cons a ps =>
        exfalso
        obtain ⟨r0, rr, hre, hr0⟩ := headSat_iff.mp h2
        rw [hre, List.cons_append] at hpp
        simp only [ciPref, Bool.and_eq_true] at hpp
        have hteq := inTokCC_of_ciEq hpp.1
        rw [hp a (by simp)] at hteq
        rw [← hteq] at hr0
        simp at hr0
    | none =>
      rw [hm] at hr
      cases hr2 : replaceFirstO try? rest with
      | none => rw [hr2] at hr; exact Option.noConfusion hr
      | some t2 =>
        rw [hr2] at hr
        simp only [Option.map_some', Option.some.injEq] at hr
        subst hr
        obtain ⟨i1, i2⟩ := ih t2 (ccFree_tail hS) hr2
        constructor
        · refine ccFree_cons ?_ i1
          cases hq : ciPref ccTok (c :: t2)
          · rfl
          · exfalso
            simp only [ccTok, ciPref, Bool.and_eq_true] at hq
            have hpull := i2 ['u', 'r', 'r', 'e', 'n', 't', 'C', 'o', 'l', 'o', 'r']
              (by decide) hq.2
            have hcontra : ciPref ccTok (c :: rest) = true := by
              simp only [ccTok, ciPref, Bool.and_eq_true]
              exact ⟨hq.1, hpull⟩
            have h0 := hS 0 (by simp)
            rw [List.drop_zero, hcontra] at h0
            exact Bool.noConfusion h0
        · intro p hp hpp
          cases p with
          | nil => rfl
          | cons a ps =>
            simp only [ciPref, Bool.and_eq_true] at hpp ⊢
            exact ⟨hpp.1, i2 ps (fun x hx => hp x (by simp [hx])) hpp.2⟩

theorem ccRep_of_noC {rep : List Char} (h : ∀ c ∈ rep, ciEq 'c' c = false)
    (hh : headSat (fun x => !inTokCC x) rep = true) :
    (∀ X, CCFree X → CCFree (rep ++ X)) ∧ headSat (fun x => !inTokCC x) rep = true :=
  ⟨fun X hX => ccFree_append_of_noC h hX, hh⟩

theorem noC_digit {c : Char} (h : isDigitCh c = true) : ciEq 'c' c = false :=
  noC_of_nonTok (inTokCC_digit h)

theorem noC_mem_numRep {ds frac : List Char}
    (hds : ∀ c ∈ ds, isDigitCh c = true) (hfrac : ∀ c ∈ frac, ciEq 'c' c = false) :
    ∀ c ∈ '=' :: '"' :: (ds ++ frac) ++ ['"'], ciEq 'c' c = false := by
  intro c hc
  simp only [List.mem_cons, List.mem_append, List.not_mem_nil, or_false] at hc
  rcases hc with (rfl | rfl | hc | hc) | rfl
  · decide
  · decide
  · exact noC_digit (hds c hc)
  · exact hfrac c hc
  · decide

theorem matchNum_ccRep : ∀ u rep rest2, CCFree u → matchNum u = some (rep, rest2) →
    (∀ X, CCFree X → CCFree (rep ++ X)) ∧
    headSat (fun x => !inTokCC x) rep = true := by
  intro u rep rest2 _ h
  simp only [matchNum] at h
  split_ifs at h with h1 h2 h3 h4 h5 <;>
    (simp only [Option.some.injEq, Prod.mk.injEq] at h
     obtain ⟨he, -⟩ := h
     subst he
     refine ccRep_of_noC (noC_mem_numRep (fun c hc => List.mem_takeWhile_imp hc) ?_)
       (by rfl)
     first
       | exact fun c hc => absurd hc (List.not_mem_nil c)
       | (intro c hc
          rcases List.mem_cons.mp hc with rfl | hc2
          · decide
          · first
              | exact noC_digit (List.mem_takeWhile_imp hc2)
              | exact absurd hc2 (List.not_mem_nil c)))

theorem matchWsRun_ccRep : ∀ u rep rest2, CCFree u →
    matchWsRun u = some (rep, rest2) →
    (∀ X, CCFree X → CCFree (rep ++ X)) ∧
    headSat (fun x => !inTokCC x) rep = true := by
  intro u rep rest2 _ h
  cases u with
  | nil => exact absurd h (by simp [matchWsRun])
  | cons c rest =>
    rw [matchWsRun] at h
    split_ifs at h
    simp only [Option.some.injEq, Prod.mk.injEq] at h
    obtain ⟨he, -⟩ := h
    subst he
    exact ccRep_of_noC (by decide) (by decide)

theorem matchWsGt_ccRep : ∀ u rep rest2, CCFree u →
    matchWsGt u = some (rep, rest2) →
    (∀ X, CCFree X → CCFree (rep ++ X)) ∧
    headSat (fun x => !inTokCC x) rep = true := by
  intro u rep rest2 _ h
  cases u with
  | nil => exact absurd h (by simp [matchWsGt])
  | cons c rest =>
    rw [matchWsGt] at h
    split_ifs at h
    simp only [Option.some.injEq, Prod.mk.injEq] at h
    obtain ⟨he, -⟩ := h
    subst he
    exact ccRep_of_noC (by decide) (by decide)

theorem insertHyphens_cc : ∀ n l, l.length ≤ n → CCFree l →
    CCFree (insertHyphens l) ∧
    (∀ p, (∀ c ∈ p, inTokCC c = true) →
      ciPref p (insertHyphens l) = true → ciPref p l = true) := by
  intro n
  induction n with
  | zero =>
    intro l hl hS
    have hz : l = [] := List.length_eq_zero.mp (Nat.le_zero.mp hl)
    subst hz
    exact ⟨hS, fun p _ h => h⟩
  | succ k ih =>
    intro l hl hS
    cases l with
    | nil => exact ⟨hS, fun p _ h => h⟩
    | cons a l2 =>
      cases l2 with
      | nil => exact ⟨hS, fun p _ h => h⟩
      | cons b rest =>
        by_cases hc : ((isLowerCh a || isDigitCh a) && isUpperCh b) = true
        · have he : insertHyphens (a :: b :: rest) =
              a :: '-' :: b :: insertHyphens rest := by
            simp [insertHyphens, hc]
          have hlen : rest.length ≤ k := by simp at hl; omega
          obtain ⟨i1, i2⟩ := ih rest hlen (ccFree_tail (ccFree_tail hS))
          rw [he]
          constructor
          · refine ccFree_cons ?_ (ccFree_cons ?_ (ccFree_cons ?_ i1))
            · simp only [ccTok, ciPref]
              rw [show ciEq 'u' '-' = false from by decide]
              simp
            · exact ccTok_pref_false_of_head (by decide)
            · cases hq : ciPref ccTok (b :: insertHyphens rest)
              · rfl
              · exfalso
                simp only [ccTok, ciPref, Bool.and_eq_true] at hq
                have hpull := i2 ['u', 'r', 'r', 'e', 'n', 't', 'C', 'o', 'l', 'o', 'r']
                  (by decide) hq.2
                have hcontra : ciPref ccTok (b :: rest) = true := by
                  simp only [ccTok, ciPref, Bool.and_eq_true]
                  exact ⟨hq.1, hpull⟩
                have h1 := hS 1 (by simp)
                rw [show (a :: b :: rest).drop 1 = b :: rest from rfl, hcontra] at h1
                exact Bool.noConfusion h1
          · intro p hp hpp
            cases p with
            | nil => rfl
            | cons a2 ps =>
              cases ps with
              | nil =>
                simp only [ciPref, Bool.and_eq_true, and_true] at hpp ⊢
                exact hpp
              | cons a3 ps2 =>
                exfalso
                simp only [ciPref, Bool.and_eq_true] at hpp
                have h3 := hpp.2.1
                have h4 := inTokCC_of_ciEq h3
                rw [hp a3 (by simp)] at h4
                exact absurd h4.symm (by decide)
        · have he : insertHyphens (a :: b :: rest) = a :: insertHyphens (b :: rest) := by
            simp [insertHyphens, hc]
          have hlen : (b :: rest).length ≤ k := by simp at hl ⊢; omega
          obtain ⟨i1, i2⟩ := ih (b :: rest) hlen (ccFree_tail hS)
          rw [he]
          constructor
          · refine ccFree_cons ?_ i1
            cases hq : ciPref ccTok (a :: insertHyphens (b :: rest))
            · rfl
            · exfalso
              simp only [ccTok, ciPref, Bool.and_eq_true] at hq
              have hpull := i2 ['u', 'r', 'r', 'e', 'n', 't', 'C', 'o', 'l', 'o', 'r']
                (by decide) hq.2
              have hcontra : ciPref ccTok (a :: b :: rest) = true := by
                have he2 : ciPref ccTok (a :: b :: rest) =
                    (ciEq 'c' a &&
                      ciPref ['u', 'r', 'r', 'e', 'n', 't', 'C', 'o', 'l', 'o', 'r']
                        (b :: rest)) := rfl
                rw [he2, Bool.and_eq_true]
                exact ⟨hq.1, hpull⟩
              have h0 := hS 0 (by simp)
              rw [List.drop_zero, hcontra] at h0
              exact Bool.noConfusion h0
          · intro p hp hpp
            cases p with
            | nil => rfl
            | cons a2 ps =>
              simp only [ciPref, Bool.and_eq_true] at hpp
              have htl := i2 ps (fun x hx => hp x (by simp [hx])) hpp.2
              have he2 : ciPref (a2 :: ps) (a :: b :: rest) =
                  (ciEq a2 a && ciPref ps (b :: rest)) := rfl
              rw [he2, Bool.and_eq_true]
              exact ⟨hpp.1, htl⟩

theorem camelToKebab_cc {name : List Char} (h : CCFree name) :
    CCFree (camelToKebab name) := by
  rw [camelToKebab]
  exact ccFree_map_lower ((insertHyphens_cc name.length name le_rfl h).1)

theorem matchCamelAttr_ccRep : ∀ u rep rest2, CCFree u →
    matchCamelAttr u = some (rep, rest2) →
    (∀ X, CCFree X → CCFree (rep ++ X)) ∧
    headSat (fun x => !inTokCC x) rep = true := by
  intro u rep rest2 hu h
  cases u with
  | nil => exact absurd h (by simp [matchCamelAttr])
  | cons c rest =>
    simp only [matchCamelAttr] at h
    split_ifs at h with h1 h2 h3 <;>
      (simp only [Option.some.injEq, Prod.mk.injEq] at h
       obtain ⟨he, -⟩ := h
       subst he)
    · rw [Bool.and_eq_true] at h1
      have hname : CCFree (rest.takeWhile isAlphaCh) := by
        refine ccFree_of_append3 (a := [])
          (b := rest.drop (rest.takeWhile isAlphaCh).length) ?_
        rw [List.nil_append, ← takeWhile_drop_decomp]
        exact ccFree_tail hu
      refine ⟨fun X hX => ?_, ?_⟩
      · have e1 : CCFree ('=' :: X) :=
          ccFree_cons (ccTok_pref_false_of_head (by decide)) hX
        have e2 : CCFree (rest.takeWhile isAlphaCh ++ '=' :: X) :=
          ccFree_append_headBlock hname e1 (Or.inl rfl)
        have e3 : (c :: rest.takeWhile isAlphaCh ++ ['=']) ++ X =
            c :: (rest.takeWhile isAlphaCh ++ '=' :: X) := by
          simp [List.cons_append, List.append_assoc]
        rw [e3]
        refine ccFree_cons ?_ e2
        exact ccTok_pref_false_of_head (noC_of_nonTok (inTokCC_ws h1.1))
      · have hcw := inTokCC_ws h1.1
        simp [headSat, hcw]
    · rw [Bool.and_eq_true] at h1
      have hname : CCFree (rest.takeWhile isAlphaCh) := by
        refine ccFree_of_append3 (a := [])
          (b := rest.drop (rest.takeWhile isAlphaCh).length) ?_
        rw [List.nil_append, ← takeWhile_drop_decomp]
        exact ccFree_tail hu
      refine ⟨fun X hX => ?_, by rfl⟩
      have e1 : CCFree ('=' :: X) :=
        ccFree_cons (ccTok_pref_false_of_head (by decide)) hX
      have e2 : CCFree (camelToKebab (rest.takeWhile isAlphaCh) ++ '=' :: X) :=
        ccFree_append_headBlock (camelToKebab_cc hname) e1 (Or.inl rfl)
      have e3 : (' ' :: camelToKebab (rest.takeWhile isAlphaCh) ++ ['=']) ++ X =
          ' ' :: (camelToKebab (rest.takeWhile isAlphaCh) ++ '=' :: X) := by
        simp [List.cons_append, List.append_assoc]
      rw [e3]
      exact ccFree_cons (ccTok_pref_false_of_head (by decide)) e2

theorem matchLtSvgCIIns_ccRep : ∀ u rep rest2, CCFree u →
    matchLtSvgCIIns u = some (rep, rest2) →
    CCFree (rep ++ rest2) ∧ headSat (fun x => !inTokCC x) rep = true := by
  intro u rep rest2 hu h
  rw [matchLtSvgCIIns] at h
  split_ifs at h
  simp only [Option.some.injEq, Prod.mk.injEq] at h
  obtain ⟨he, hr⟩ := h
  subst he
  subst hr
  constructor
  · refine ccFree_append_of_noC (by decide) ?_
    exact ccFree_suffix hu ⟨u.take 4, List.take_append_drop 4 u⟩
  · rfl

theorem replaceFirstO_decomp {try? : List Char → Option (List Char × List Char)} :
    ∀ {s t}, replaceFirstO try? s = some t →
      ∃ pre u rep rest2, s = pre ++ u ∧ t = pre ++ (rep ++ rest2) ∧
        try? u = some (rep, rest2) := by
  intro s
  induction s with
  | nil =>
    intro t h
    rw [replaceFirstO] at h
    cases hm : try? [] with
    | some pr =>
      obtain ⟨rep, rest2⟩ := pr
      rw [hm] at h
      simp only [Option.some.injEq] at h
      exact ⟨[], [], rep, rest2, rfl, by rw [← h]; rfl, hm⟩
    | none =>
      rw [hm] at h
      exact Option.noConfusion h
  | cons c rest ih =>
    intro t h
    rw [replaceFirstO] at h
    cases hm : try? (c :: rest) with
    | some pr =>
      obtain ⟨rep, rest2⟩ := pr
      rw [hm] at h
      simp only [Option.some.injEq] at h
      exact ⟨[], c :: rest, rep, rest2, rfl, by rw [← h]; rfl, hm⟩
    | none =>
      rw [hm] at h
      cases hr2 : replaceFirstO try? rest with
      | none => rw [hr2] at h; exact Option.noConfusion h
      | some t2 =>
        rw [hr2] at h
        simp only [Option.map_some', Option.some.injEq] at h
        obtain ⟨pre, u, rep, rest2, he1, he2, hm2⟩ := ih hr2
        refine ⟨c :: pre, u, rep, rest2, ?_, ?_, hm2⟩
        · rw [List.cons_append, ← he1]
        · rw [← h, List.cons_append, he2]

theorem matchWidthAttr_decomp {w u rep rest2 : List Char}
    (h : matchWidthAttr w u = some (rep, rest2)) :
    rep = widthQ ++ w ++ ['"'] ∧ ∃ v, u = widthQ ++ (v ++ '"' :: rest2) := by
  simp only [matchWidthAttr] at h
  split_ifs at h with h1 h2
  simp only [Option.some.injEq, Prod.mk.injEq] at h
  obtain ⟨hr, hrest⟩ := h
  refine ⟨hr.symm, ?_⟩
  have hu7 : u = widthQ ++ u.drop 7 := litPref_decomp h1
  have hv : u.drop 7 = (u.drop 7).takeWhile (fun c => c ≠ '"') ++
      (u.drop 7).drop ((u.drop 7).takeWhile (fun c => c ≠ '"')).length :=
    takeWhile_drop_decomp _ _
  obtain ⟨tl, htl⟩ := hasHead_iff.mp h2
  rw [htl] at hrest
  simp only [List.tail_cons] at hrest
  subst hrest
  exact ⟨(u.drop 7).takeWhile (fun c => c ≠ '"'),
    hu7.trans (congrArg (widthQ ++ ·) (hv.trans (congrArg (_ ++ ·) htl)))⟩

theorem matchHeightAttr_decomp {hw u rep rest2 : List Char}
    (h : matchHeightAttr hw u = some (rep, rest2)) :
    rep = heightQ ++ hw ++ ['"'] ∧ ∃ v, u = heightQ ++ (v ++ '"' :: rest2) := by
  simp only [matchHeightAttr] at h
  split_ifs at h with h1 h2
  simp only [Option.some.injEq, Prod.mk.injEq] at h
  obtain ⟨hr, hrest⟩ := h
  refine ⟨hr.symm, ?_⟩
  have hu8 : u = heightQ ++ u.drop 8 := litPref_decomp h1
  have hv : u.drop 8 = (u.drop 8).takeWhile (fun c => c ≠ '"') ++
      (u.drop 8).drop ((u.drop 8).takeWhile (fun c => c ≠ '"')).length :=
    takeWhile_drop_decomp _ _
  obtain ⟨tl, htl⟩ := hasHead_iff.mp h2
  rw [htl] at hrest
  simp only [List.tail_cons] at hrest
  subst hrest
  exact ⟨(u.drop 8).takeWhile (fun c => c ≠ '"'),
    hu8.trans (congrArg (heightQ ++ ·) (hv.trans (congrArg (_ ++ ·) htl)))⟩

theorem matchLtSvgIns_decomp {ins u rep rest2 : List Char}
    (h : matchLtSvgIns ins u = some (rep, rest2)) :
    rep = ins ∧ u = ltSvg ++ rest2 := by
  rw [matchLtSvgIns] at h
  split_ifs at h with h1
  simp only [Option.some.injEq, Prod.mk.injEq] at h
  refine ⟨h.1.symm, ?_⟩
  have hd := litPref_decomp h1
  rw [hd]
  exact congrArg (ltSvg ++ ·) h.2

theorem injectWidth_ccX {w : List Char} (hw : CCFree w) :
    ∀ tag X, CCFree (tag ++ X) → CCFree (injectWidth w tag ++ X) := by
  intro tag X htX
  rw [injectWidth]
  cases hr : replaceFirstO (matchWidthAttr w) tag with
  | some t =>
    obtain ⟨pre, u, rep, rest2, he1, he2, hm⟩ := replaceFirstO_decomp hr
    obtain ⟨hrep, v, hue⟩ := matchWidthAttr_decomp hm
    have hrX : CCFree (rest2 ++ X) := by
      apply ccFree_suffix htX
      refine ⟨pre ++ widthQ ++ v ++ ['"'], ?_⟩
      rw [he1, hue]
      simp [List.append_assoc]
    have hpre : CCFree pre := by
      refine ccFree_of_append3 (a := []) (b := u ++ X) ?_
      rw [List.nil_append, ← List.append_assoc, ← he1]
      exact htX
    have e1 : CCFree ('"' :: (rest2 ++ X)) :=
      ccFree_cons (ccTok_pref_false_of_head (by decide)) hrX
    have e2 : CCFree (w ++ '"' :: (rest2 ++ X)) :=
      ccFree_append_headBlock hw e1 (Or.inl rfl)
    have e3 : CCFree (widthQ ++ (w ++ '"' :: (rest2 ++ X))) :=
      ccFree_append_of_noC (by decide) e2
    have e4 : CCFree (pre ++ (widthQ ++ (w ++ '"' :: (rest2 ++ X)))) :=
      ccFree_append_headBlock hpre e3 (Or.inl rfl)
    have e5 : t ++ X = pre ++ (widthQ ++ (w ++ '"' :: (rest2 ++ X))) := by
      rw [he2, hrep]
      simp [List.append_assoc]
    rw [e5]
    exact e4
  | none =>
    cases hr2 : replaceFirstO
        (matchLtSvgIns (ltSvg ++ ' ' :: widthQ ++ w ++ ['"'])) tag with
    | none => simpa using htX
    | some t =>
      obtain ⟨pre, u, rep, rest2, he1, he2, hm⟩ := replaceFirstO_decomp hr2
      obtain ⟨hrep, hue⟩ := matchLtSvgIns_decomp hm
      have hrX : CCFree (rest2 ++ X) := by
        apply ccFree_suffix htX
        refine ⟨pre ++ ltSvg, ?_⟩
        rw [he1, hue]
        simp [List.append_assoc]
      have hpre : CCFree pre := by
        refine ccFree_of_append3 (a := []) (b := u ++ X) ?_
        rw [List.nil_append, ← List.append_assoc, ← he1]
        exact htX
      have e1 : CCFree ('"' :: (rest2 ++ X)) :=
        ccFree_cons (ccTok_pref_false_of_head (by decide)) hrX
      have e2 : CCFree (w ++ '"' :: (rest2 ++ X)) :=
        ccFree_append_headBlock hw e1 (Or.inl rfl)
      have e3 : CCFree ((ltSvg ++ ' ' :: widthQ) ++ (w ++ '"' :: (rest2 ++ X))) :=
        ccFree_append_of_noC (by decide) e2
      have e4 : CCFree (pre ++ ((ltSvg ++ ' ' :: widthQ) ++ (w ++ '"' :: (rest2 ++ X)))) :=
        ccFree_append_headBlock hpre e3 (Or.inl rfl)
      have e5 : t ++ X = pre ++ ((ltSvg ++ ' ' :: widthQ) ++ (w ++ '"' :: (rest2 ++ X))) := by
        rw [he2, hrep]
        simp [List.append_assoc]
      rw [Option.getD_some, e5]
      exact e4

theorem injectHeight_ccX {hv : List Char} (hh : CCFree hv) :
    ∀ tag X, CCFree (tag ++ X) → CCFree (injectHeight hv tag ++ X) := by
  intro tag X htX
  rw [injectHeight]
  cases hr : replaceFirstO (matchHeightAttr hv) tag with
  | some t =>
    obtain ⟨pre, u, rep, rest2, he1, he2, hm⟩ := replaceFirstO_decomp hr
    obtain ⟨hrep, v, hue⟩ := matchHeightAttr_decomp hm
    have hrX : CCFree (rest2 ++ X) := by
      apply ccFree_suffix htX
      refine ⟨pre ++ heightQ ++ v ++ ['"'], ?_⟩
      rw [he1, hue]
      simp [List.append_assoc]
    have hpre : CCFree pre := by
      refine ccFree_of_append3 (a := []) (b := u ++ X) ?_
      rw [List.nil_append, ← List.append_assoc, ← he1]
      exact htX
    have e1 : CCFree ('"' :: (rest2 ++ X)) :=
      ccFree_cons (ccTok_pref_false_of_head (by decide)) hrX
    have e2 : CCFree (hv ++ '"' :: (rest2 ++ X)) :=
      ccFree_append_headBlock hh e1 (Or.inl rfl)
    have e3 : CCFree (heightQ ++ (hv ++ '"' :: (rest2 ++ X))) :=
      ccFree_append_of_noC (by decide) e2
    have e4 : CCFree (pre ++ (heightQ ++ (hv ++ '"' :: (rest2 ++ X)))) :=
      ccFree_append_headBlock hpre e3 (Or.inl rfl)
    have e5 : t ++ X = pre ++ (heightQ ++ (hv ++ '"' :: (rest2 ++ X))) := by
      rw [he2, hrep]
      simp [List.append_assoc]
    rw [e5]
    exact e4
  | none =>
    cases hr2 : replaceFirstO
        (matchLtSvgIns (ltSvg ++ ' ' :: heightQ ++ hv ++ ['"'])) tag with
    | none => simpa using htX
    | some t =>
      obtain ⟨pre, u, rep, rest2, he1, he2, hm⟩ := replaceFirstO_decomp hr2
      obtain ⟨hrep, hue⟩ := matchLtSvgIns_decomp hm
      have hrX : CCFree (rest2 ++ X) := by
        apply ccFree_suffix htX
        refine ⟨pre ++ ltSvg, ?_⟩
        rw [he1, hue]
        simp [List.append_assoc]
      have hpre : CCFree pre := by
        refine ccFree_of_append3 (a := []) (b := u ++ X) ?_
        rw [List.nil_append, ← List.append_assoc, ← he1]
        exact htX
      have e1 : CCFree ('"' :: (rest2 ++ X)) :=
        ccFree_cons (ccTok_pref_false_of_head (by decide)) hrX
      have e2 : CCFree (hv ++ '"' :: (rest2 ++ X)) :=
        ccFree_append_headBlock hh e1 (Or.inl rfl)
      have e3 : CCFree ((ltSvg ++ ' ' :: heightQ) ++ (hv ++ '"' :: (rest2 ++ X))) :=
        ccFree_append_of_noC (by decide) e2
      have e4 : CCFree (pre ++ ((ltSvg ++ ' ' :: heightQ) ++ (hv ++ '"' :: (rest2 ++ X)))) :=
        ccFree_append_headBlock hpre e3 (Or.inl rfl)
      have e5 : t ++ X = pre ++ ((ltSvg ++ ' ' :: heightQ) ++ (hv ++ '"' :: (rest2 ++ X))) := by
        rw [he2, hrep]
        simp [List.append_assoc]
      rw [Option.getD_some, e5]
      exact e4

theorem injectDims_none_none (tag : List Char) : injectDims none none tag = tag := rfl

theorem injectDims_some_none (w tag : List Char) :
    injectDims (some w) none tag = if w.isEmpty then tag else injectWidth w tag := rfl

theorem injectDims_none_some (hv tag : List Char) :
    injectDims none (some hv) tag = if hv.isEmpty then tag else injectHeight hv tag := rfl

theorem injectDims_some_some (w hv tag : List Char) :
    injectDims (some w) (some hv) tag =
      (if hv.isEmpty then (if w.isEmpty then tag else injectWidth w tag)
       else injectHeight hv (if w.isEmpty then tag else injectWidth w tag)) := rfl

theorem injectDims_ccX {tw th : Option (List Char)}
    (hw : ∀ v, tw = some v → CCFree v) (hh : ∀ v, th = some v → CCFree v) :
    ∀ tag X, CCFree (tag ++ X) → CCFree (injectDims tw th tag ++ X) := by
  intro tag X htX
  cases tw with
  | none =>
    cases th with
    | none => rw [injectDims_none_none]; exact htX
    | some hvv =>
      rw [injectDims_none_some]
      by_cases he : hvv.isEmpty = true
      · rw [if_pos he]; exact htX
      · rw [if_neg he]; exact injectHeight_ccX (hh hvv rfl) tag X htX
  | some wv =>
    have h1 : CCFree ((if wv.isEmpty then tag else injectWidth wv tag) ++ X) := by
      by_cases he : wv.isEmpty = true
      · rw [if_pos he]; exact htX
      · rw [if_neg he]; exact injectWidth_ccX (hw wv rfl) tag X htX
    cases th with
    | none => rw [injectDims_some_none]; exact h1
    | some hvv =>
      rw [injectDims_some_some]
      by_cases he2 : hvv.isEmpty = true
      · rw [if_pos he2]; exact h1
      · rw [if_neg he2]
        exact injectHeight_ccX (hh hvv rfl) _ X h1

theorem eq_lt_of_ciEq {c : Char} (h : ciEq '<' c = true) : c = '<' := by
  rw [ciEq, decide_eq_true_eq] at h
  have h0 : lowerChar c = '<' := by
    rw [← h]
    decide
  by_cases hu : 65 ≤ c.toNat ∧ c.toNat ≤ 90
  · exfalso
    have h2 := lowerChar_toNat_upper hu
    rw [h0] at h2
    have h3 : ('<').toNat = 60 := rfl
    omega
  · rw [← lowerChar_eq_self hu, h0]

theorem matchSvgOpenTag_decomp {u tag rest2 : List Char}
    (h : matchSvgOpenTag u = some (tag, rest2)) :
    u = tag ++ rest2 ∧ hasHead '<' tag = true := by
  simp only [matchSvgOpenTag] at h
  split_ifs at h with h1 h2
  simp only [Option.some.injEq, Prod.mk.injEq] at h
  obtain ⟨htag, hrest⟩ := h
  obtain ⟨tl, htl⟩ := hasHead_iff.mp h2
  rw [htl] at hrest
  simp only [List.tail_cons] at hrest
  constructor
  · rw [← htag, ← hrest]
    have e1 : u = u.take 4 ++ u.drop 4 := (List.take_append_drop 4 u).symm
    have e2 : u.drop 4 = (u.drop 4).takeWhile (fun c => c ≠ '>') ++
        (u.drop 4).drop ((u.drop 4).takeWhile (fun c => c ≠ '>')).length :=
      takeWhile_drop_decomp _ _
    have e3 : u = u.take 4 ++ ((u.drop 4).takeWhile (fun c => c ≠ '>') ++ '>' :: tl) :=
      e1.trans (congrArg (u.take 4 ++ ·) (e2.trans (congrArg (_ ++ ·) htl)))
    exact e3.trans (by simp [List.append_assoc])
  · rw [← htag]
    cases u with
    | nil => simp [ciPref, ltSvg] at h1
    | cons u0 urest =>
      have hq : ciEq '<' u0 = true := by
        simp only [ltSvg, ciPref, Bool.and_eq_true] at h1
        exact h1.1
      have he0 : u0 = '<' := eq_lt_of_ciEq hq
      subst he0
      rfl

theorem replaceFirstO_head_cons {try? : List Char → Option (List Char × List Char)}
    {c : Char} {rest t : List Char}
    (hm : try? (c :: rest) = none) (h : replaceFirstO try? (c :: rest) = some t) :
    ∃ t2, t = c :: t2 := by
  rw [replaceFirstO, hm] at h
  cases hr : replaceFirstO try? rest with
  | none => rw [hr] at h; exact Option.noConfusion h
  | some t2 =>
    rw [hr] at h
    simp only [Option.map_some', Option.some.injEq] at h
    exact ⟨t2, h.symm⟩

theorem injectWidth_head {w tag : List Char} (h : hasHead '<' tag = true) :
    hasHead '<' (injectWidth w tag) = true := by
  obtain ⟨c2, t2, hs, hp⟩ := headSat_iff.mp h
  rw [decide_eq_true_eq] at hp
  subst hs
  subst hp
  rw [injectWidth]
  have hm : matchWidthAttr w ('<' :: t2) = none := by
    simp [matchWidthAttr, widthQ, litPref]
  cases hr : replaceFirstO (matchWidthAttr w) ('<' :: t2) with
  | some t =>
    obtain ⟨t3, ht3⟩ := replaceFirstO_head_cons hm hr
    rw [ht3]
    rfl
  | none =>
    cases hr2 : replaceFirstO
        (matchLtSvgIns (ltSvg ++ ' ' :: widthQ ++ w ++ ['"'])) ('<' :: t2) with
    | none => rfl
    | some t =>
      cases hmi : matchLtSvgIns (ltSvg ++ ' ' :: widthQ ++ w ++ ['"']) ('<' :: t2) with
      | some pr =>
        obtain ⟨rep, rst⟩ := pr
        obtain ⟨hrep, -⟩ := matchLtSvgIns_decomp hmi
        rw [replaceFirstO, hmi] at hr2
        simp only [Option.some.injEq] at hr2
        rw [Option.getD_some, ← hr2, hrep]
        rfl
      | none =>
        obtain ⟨t3, ht3⟩ := replaceFirstO_head_cons hmi hr2
        rw [Option.getD_some, ht3]
        rfl

theorem injectHeight_head {hv tag : List Char} (h : hasHead '<' tag = true) :
    hasHead '<' (injectHeight hv tag) = true := by
  obtain ⟨c2, t2, hs, hp⟩ := headSat_iff.mp h
  rw [decide_eq_true_eq] at hp
  subst hs
  subst hp
  rw [injectHeight]
  have hm : matchHeightAttr hv ('<' :: t2) = none := by
    simp [matchHeightAttr, heightQ, litPref]
  cases hr : replaceFirstO (matchHeightAttr hv) ('<' :: t2) with
  | some t =>
    obtain ⟨t3, ht3⟩ := replaceFirstO_head_cons hm hr
    rw [ht3]
    rfl
  | none =>
    cases hr2 : replaceFirstO
        (matchLtSvgIns (ltSvg ++ ' ' :: heightQ ++ hv ++ ['"'])) ('<' :: t2) with
    | none => rfl
    | some t =>
      cases hmi : matchLtSvgIns (ltSvg ++ ' ' :: heightQ ++ hv ++ ['"']) ('<' :: t2) with
      | some pr =>
        obtain ⟨rep, rst⟩ := pr
        obtain ⟨hrep, -⟩ := matchLtSvgIns_decomp hmi
        rw [replaceFirstO, hmi] at hr2
        simp only [Option.some.injEq] at hr2
        rw [Option.getD_some, ← hr2, hrep]
        rfl
      | none =>
        obtain ⟨t3, ht3⟩ := replaceFirstO_head_cons hmi hr2
        rw [Option.getD_some, ht3]
        rfl

theorem injectDims_head {tw th : Option (List Char)} {tag : List Char}
    (h : hasHead '<' tag = true) : hasHead '<' (injectDims tw th tag) = true := by
  have h1 : ∀ wv : List Char,
      hasHead '<' (if wv.isEmpty then tag else injectWidth wv tag) = true := by
    intro wv
    by_cases he : wv.isEmpty = true
    · rw [if_pos he]; exact h
    · rw [if_neg he]; exact injectWidth_head h
  cases tw with
  | none =>
    cases th with
    | none => rw [injectDims_none_none]; exact h
    | some hvv =>
      rw [injectDims_none_some]
      by_cases he : hvv.isEmpty = true
      · rw [if_pos he]; exact h
      · rw [if_neg he]; exact injectHeight_head h
  | some wv =>
    cases th with
    | none => rw [injectDims_some_none]; exact h1 wv
    | some hvv =>
      rw [injectDims_some_some]
      by_cases he : hvv.isEmpty = true
      · rw [if_pos he]; exact h1 wv
      · rw [if_neg he]; exact injectHeight_head (h1 wv)

theorem svgTagTry_ccRep {tw th : Option (List Char)}
    (hw : ∀ v, tw = some v → CCFree v) (hh : ∀ v, th = some v → CCFree v) :
    ∀ u rep rest2, CCFree u → svgTagTry tw th u = some (rep, rest2) →
      CCFree (rep ++ rest2) ∧ headSat (fun x => !inTokCC x) rep = true := by
  intro u rep rest2 hu h
  rw [svgTagTry] at h
  cases hmo : matchSvgOpenTag u with
  | none => rw [hmo] at h; exact Option.noConfusion h
  | some pr =>
    obtain ⟨tag, rst⟩ := pr
    rw [hmo] at h
    simp only [Option.map_some', Option.some.injEq, Prod.mk.injEq] at h
    obtain ⟨hrep, hrst⟩ := h
    subst hrst
    obtain ⟨hue, hhd⟩ := matchSvgOpenTag_decomp hmo
    constructor
    · rw [← hrep]
      apply injectDims_ccX hw hh
      rw [← hue]
      exact hu
    · have hh2 : hasHead '<' (injectDims tw th tag) = true := injectDims_head hhd
      rw [← hrep]
      obtain ⟨c2, t3, hs, hp⟩ := headSat_iff.mp hh2
      rw [decide_eq_true_eq] at hp
      subst hp
      rw [hs]
      rfl

theorem matchVB_seg {s v : List Char} (h : matchVB s = some v) :
    ∃ a b, s = a ++ v ++ b := by
  simp only [matchVB] at h
  split_ifs at h with h1 h2 h3
  simp only [Option.some.injEq] at h
  subst h
  refine ⟨s.take 9,
    (s.drop 9).drop ((s.drop 9).takeWhile (fun c => !isQuoteCh c)).length, ?_⟩
  have e := (List.take_append_drop 9 s).symm.trans
    (congrArg (s.take 9 ++ ·) (takeWhile_drop_decomp (fun c => !isQuoteCh c) (s.drop 9)))
  exact e.trans (by simp [List.append_assoc])

theorem searchVB_seg : ∀ s v : List Char, searchVB s = some v →
    ∃ a b, s = a ++ v ++ b := by
  intro s
  induction s with
  | nil => intro v h; exact absurd h (by simp [searchVB])
  | cons c rest ih =>
    intro v h
    rw [searchVB] at h
    cases hm : matchVB (c :: rest) with
    | some v2 =>
      rw [hm] at h
      simp only [Option.some.injEq] at h
      subst h
      exact matchVB_seg hm
    | none =>
      rw [hm] at h
      obtain ⟨a, b, he⟩ := ih v h
      exact ⟨c :: a, b, by rw [he]; simp⟩

theorem splitWsF_seg : ∀ fuel s x, x ∈ splitWsF fuel s → ∃ a b, s = a ++ x ++ b := by
  intro fuel
  induction fuel with
  | zero =>
    intro s x hx
    simp only [splitWsF, List.mem_singleton] at hx
    subst hx
    exact ⟨[], [], by simp⟩
  | succ f ih =>
    intro s x hx
    simp only [splitWsF] at hx
    split_ifs at hx with h1
    · simp only [List.mem_singleton] at hx
      subst hx
      exact ⟨[], s.drop (s.takeWhile (fun c => !isWsChar c)).length,
        (takeWhile_drop_decomp (fun c => !isWsChar c) s).trans (by simp)⟩
    · simp only [List.mem_cons] at hx
      rcases hx with rfl | hx
      · exact ⟨[], s.drop (s.takeWhile (fun c => !isWsChar c)).length,
          (takeWhile_drop_decomp (fun c => !isWsChar c) s).trans (by simp)⟩
      · obtain ⟨a, b, he⟩ := ih _ x hx
        refine ⟨s.takeWhile (fun c => !isWsChar c) ++
          (s.drop (s.takeWhile (fun c => !isWsChar c)).length).takeWhile isWsChar ++ a,
          b, ?_⟩
        have e1 := takeWhile_drop_decomp (fun c => !isWsChar c) s
        have e2 := (List.takeWhile_append_dropWhile
          (p := isWsChar)
          (l := s.drop (s.takeWhile (fun c => !isWsChar c)).length)).symm
        have e3 := e1.trans (congrArg (s.takeWhile (fun c => !isWsChar c) ++ ·) e2)
        have e4 := e3.trans (congrArg
          (fun z => s.takeWhile (fun c => !isWsChar c) ++
            ((s.drop (s.takeWhile (fun c => !isWsChar c)).length).takeWhile isWsChar ++ z))
          he)
        exact e4.trans (by simp [List.append_assoc])

theorem extractVB_cc {t3 : List Char} (h3 : CCFree t3) :
    (∀ v, (extractViewBoxDimensions t3).width = some v → CCFree v) ∧
    (∀ v, (extractViewBoxDimensions t3).height = some v → CCFree v) := by
  cases hsv : searchVB t3 with
  | none =>
    simp only [extractViewBoxDimensions, hsv]
    exact ⟨fun v hv => Option.noConfusion hv, fun v hv => Option.noConfusion hv⟩
  | some vb =>
    obtain ⟨a, b, hab⟩ := searchVB_seg t3 vb hsv
    have hvb : CCFree vb := ccFree_of_append3 (hab ▸ h3)
    simp only [extractViewBoxDimensions, hsv]
    by_cases hl : (splitWs vb).length ≥ 4
    · rw [if_pos hl]
      constructor
      · intro v hv
        have hm := List.get?_mem hv
        obtain ⟨a2, b2, hab2⟩ := splitWsF_seg vb.length vb v hm
        exact ccFree_of_append3 (hab2 ▸ hvb)
      · intro v hv
        have hm := List.get?_mem hv
        obtain ⟨a2, b2, hab2⟩ := splitWsF_seg vb.length vb v hm
        exact ccFree_of_append3 (hab2 ▸ hvb)
    · rw [if_neg hl]
      exact ⟨fun v hv => Option.noConfusion hv, fun v hv => Option.noConfusion hv⟩

theorem resolveTargets_cc {o : TransformOptions} {t3 : List Char}
    (hW : ∀ v, o.width = some v → CCFree v) (hH : ∀ v, o.height = some v → CCFree v)
    (h3 : CCFree t3) :
    (∀ v, (resolveTargets o t3).1 = some v → CCFree v) ∧
    (∀ v, (resolveTargets o t3).2 = some v → CCFree v) := by
  simp only [resolveTargets]
  obtain ⟨hvw, hvh⟩ := extractVB_cc h3
  by_cases hc : (!truthy o.width || !truthy o.height) = true
  · rw [if_pos hc]
    constructor
    · intro v hv
      have hv2 : (if !truthy o.width && truthy (extractViewBoxDimensions t3).width then
          (extractViewBoxDimensions t3).width else o.width) = some v := hv
      split_ifs at hv2
      · exact hvw v hv2
      · exact hW v hv2
    · intro v hv
      have hv2 : (if !truthy o.height && truthy (extractViewBoxDimensions t3).height then
          (extractViewBoxDimensions t3).height else o.height) = some v := hv
      split_ifs at hv2
      · exact hvh v hv2
      · exact hH v hv2
  · rw [if_neg hc]
    exact ⟨hW, hH⟩

theorem resolveColor_ne_nil (o : TransformOptions) : resolveColor o ≠ [] := by
  cases hc : o.color with
  | none => simp [resolveColor, hc, defaultColor]
  | some v =>
    by_cases he : v.isEmpty = true
    · simp [resolveColor, hc, he, defaultColor]
    · have he2 : v.isEmpty = false := by
        cases hb : v.isEmpty
        · rfl
        · exact absurd hb he
      simp only [resolveColor, hc, he2, Bool.false_eq_true, if_false]
      intro hn
      rw [hn] at he2
      simp at he2

theorem pass4_cc {tw th : Option (List Char)}
    (hw : ∀ v, tw = some v → CCFree v) (hh : ∀ v, th = some v → CCFree v)
    {u : List Char} (hu : CCFree u) :
    CCFree (if truthy tw || truthy th then
      (replaceFirstO (svgTagTry tw th) u).getD u else u) := by
  by_cases hc : (truthy tw || truthy th) = true
  · rw [if_pos hc]
    cases hr : replaceFirstO (svgTagTry tw th) u with
    | none => rw [Option.getD_none]; exact hu
    | some t2 =>
      rw [Option.getD_some]
      exact (replaceFirstO_ccPreserve (svgTagTry_ccRep hw hh) u t2 hu hr).1
  · rw [if_neg hc]
    exact hu

theorem pass5_cc {u : List Char} (hu : CCFree u) :
    CCFree (if hasSub xmlnsEq u then u
      else (replaceFirstO matchLtSvgCIIns u).getD u) := by
  by_cases hc : hasSub xmlnsEq u = true
  · rw [if_pos hc]; exact hu
  · rw [if_neg hc]
    cases hr : replaceFirstO matchLtSvgCIIns u with
    | none => rw [Option.getD_none]; exact hu
    | some t2 =>
      rw [Option.getD_some]
      exact (replaceFirstO_ccPreserve matchLtSvgCIIns_ccRep u t2 hu hr).1

theorem transformSvg_ccFree {s t : List Char} {o : TransformOptions}
    (hcol : ∀ c ∈ resolveColor o, inTokCC c = false)
    (hW : ∀ v, o.width = some v → CCFree v)
    (hH : ∀ v, o.height = some v → CCFree v)
    (h : transformSvg s o = Result.success t) : CCFree t := by
  simp only [transformSvg, Result.success.injEq] at h
  subst h
  have h2 : CCFree (replaceAll (matchCC (resolveColor o)) (replaceAll matchProps s)) :=
    (matchCC_establish (resolveColor_ne_nil o) hcol _ _ le_rfl).1
  have h3 : CCFree (replaceAll matchNum
      (replaceAll (matchCC (resolveColor o)) (replaceAll matchProps s))) :=
    (replaceAllF_ccPreserve properTail_matchNum matchNum_ccRep _ _ le_rfl h2).1
  obtain ⟨hTW, hTH⟩ := resolveTargets_cc hW hH h3
  refine (replaceAllF_ccPreserve properTail_matchWsGt matchWsGt_ccRep _ _ le_rfl ?_).1
  refine (replaceAllF_ccPreserve properTail_matchWsRun matchWsRun_ccRep _ _ le_rfl ?_).1
  refine (replaceAllF_ccPreserve properTail_matchCamelAttr matchCamelAttr_ccRep
    _ _ le_rfl ?_).1
  exact pass5_cc (pass4_cc hTW hTH h3)

/-- C7 (amended): the dynamic-color substitution resolves the replacement
color as `options.color` when that is a supplied nonempty string and as the
literal `#000000` otherwise; the global scan replaces each case-insensitive
occurrence of the `currentColor` token it reaches by the resolved color and
resumes after the replaced span.  A token-free output is guaranteed only when
the resolved color has no character of the token's own (case-folded)
alphabet and the supplied width/height carry no occurrence — the default
`#000000` and colors such as `#404040` qualify, while the counterexample
shows the valid hex color `#00000c` leaves an occurrence behind. -/
theorem claim7_thm :
    (∀ o : TransformOptions, o.color = none → resolveColor o = defaultColor) ∧
    (∀ (o : TransformOptions) (v : List Char), o.color = some v → v ≠ [] →
      resolveColor o = v) ∧
    (∀ col a cc12 b : List Char,
      (∀ n, n < a.length → matchCC col ((a ++ (cc12 ++ b)).drop n) = none) →
      ciPref ccTok cc12 = true → cc12.length = 12 →
      replaceAll (matchCC col) (a ++ (cc12 ++ b)) =
        a ++ (col ++ replaceAll (matchCC col) b)) ∧
    (∀ (s t : List Char) (o : TransformOptions),
      (∀ c ∈ resolveColor o, inTokCC c = false) →
      (∀ v, o.width = some v → CCFree v) →
      (∀ v, o.height = some v → CCFree v) →
      transformSvg s o = Result.success t → CCFree t) := by
  refine ⟨?_, ?_, ?_, ?_⟩
  · intro o h
    simp [resolveColor, h]
  · intro o v h hne
    have he2 : v.isEmpty = false := by
      cases v
      · exact absurd rfl hne
      · rfl
    simp [resolveColor, h, he2]
  · intro col a cc12 b hno hci hlen
    have h1 := replaceAll_append_nomatch a (cc12 ++ b) hno
    have hm : matchCC col (cc12 ++ b) = some (col, b) := by
      rw [matchCC, if_pos (ciPref_mono hci)]
      rw [show (cc12 ++ b).drop 12 = b from by rw [← hlen]; exact List.drop_left cc12 b]
    have h2 := replaceAll_cons_match (properTail_matchCC col) hm
    rw [h1, h2]
  · intro s t o hcol hW hH h
    exact transformSvg_ccFree hcol hW hH h

/-- C7 (witness): concrete instances of the four conjuncts — the default
color, a supplied `#404040`, one scan step over a concrete fragment, and
token-freeness of the end-to-end example's output. -/
theorem claim7_witness :
    resolveColor {} = defaultColor ∧
    resolveColor { color := some ['#', '4', '0', '4', '0', '4', '0'] } =
      ['#', '4', '0', '4', '0', '4', '0'] ∧
    replaceAll (matchCC defaultColor)
      ("<p fill=\"".toList ++ ("currentColor".toList ++ "\"/>".toList)) =
      "<p fill=\"".toList ++
        (defaultColor ++ replaceAll (matchCC defaultColor) ("\"/>".toList)) ∧
    CCFree c1Out :=
  ⟨claim7_thm.1 {} rfl,
   claim7_thm.2.1 { color := some ['#', '4', '0', '4', '0', '4', '0'] }
     ['#', '4', '0', '4', '0', '4', '0'] rfl (by decide),
   claim7_thm.2.2.1 defaultColor ("<p fill=\"".toList) ("currentColor".toList)
     ("\"/>".toList) (by decide) (by decide) (by decide),
   claim7_thm.2.2.2 c1In c1Out {} (by decide) (fun v hv => Option.noConfusion hv)
     (fun v hv => Option.noConfusion hv) (by decide)⟩

/-- C10 (counterexample): the original claim quantifies over every fragment
whose root opening tag carries a single-quoted width attribute, but on
`<SVG width='24' viewBox="0 0 6 6"></svg>` — a determined width target and a
single-quoted attribute, yet an uppercase tag — no double-quoted `width="…"`
is inserted at all: the insertion replaces a case-sensitive `<svg` that the
tag lacks, and the final output carries only the old single-quoted
attribute. -/
theorem claim10_cex :
    transformSvg c10bIn {} = Result.success c10bOut ∧
    truthy (resolveTargets {} c10bIn).1 = true ∧
    hasSub ("width=".toList ++ [sqCh]) c10bIn = true ∧
    hasSub widthQ c10bOut = false ∧
    hasSub ("width=".toList ++ [sqCh]) c10bOut = true := by
  decide
